import Mathlib

/-!
Verification of the medici-data-sync repository: a shallow embedding of the
entity model and canonicalizer of src/lib/src/data.rs, the raw data layer of
src/lib/src/raw_data.rs, the loading driver of src/lib/src/helpers.rs, and the
diff engine of src/src/sync.rs, together with theorems settling the claims of
the natural-language specification.

Modelling conventions:
- Rust String values are lists of byte values (List Nat); uuid::Uuid values are
  natural numbers (Uuid byte order agrees with Nat order); chrono::NaiveDate
  values are natural numbers ordered as dates are.
- The digest primitive (src/lib/src/hashable.rs, not part of the snapshot) is
  modelled from the spec: digest(entity) = H(bytes) for a collision-resistant H,
  modelled as the byte stream itself, so digest equality is byte-stream equality.
- Uuid::new_v4 (fresh random id) is modelled as a fixed value; every theorem
  below either supplies explicit ids or does not depend on freshness.
-/

/-- Rust String modelled as a list of byte values. -/
abbrev Str : Type := List Nat

/-- uuid::Uuid modelled as a natural number. -/
abbrev Uuid : Type := Nat

/-- A content digest: modelled from the spec (section 4.3) as the hashed byte
stream itself, since src/lib/src/hashable.rs is not in the snapshot and the
spec only requires a collision-resistant digest of the bytes. -/
abbrev Digest : Type := List Nat

/-- Uuid::new_v4 modelled as a fixed fresh value. -/
def uuidNewV4 : Uuid := 0

/-- The byte rendering of a Uuid (uuid.as_bytes), injectively modelled. -/
def uuidBytes (u : Uuid) : List Nat := [u]

/-- The big-endian byte rendering of an i16 year, injectively modelled. -/
def yearBytes (y : Int) : List Nat := [(y + 32768).toNat]

/-- The NaiveDate to_string byte rendering, injectively modelled. -/
def dateBytes (d : Nat) : List Nat := [d]

/-- Whitespace test of str::trim, modelled on ASCII whitespace bytes. -/
def isWhitespace (c : Nat) : Bool := c = 32 || c = 9 || c = 10 || c = 13

/-- str::trim: drops leading and trailing whitespace. -/
def strTrim (t : Str) : Str :=
  ((t.dropWhile isWhitespace).reverse.dropWhile isWhitespace).reverse

/-- Bytes of a string literal, for concrete inputs. -/
def strOf (s : String) : Str := s.data.map Char.toNat

/-- QuestionOptionData (src/lib/src/data.rs lines 316-326). -/
structure QuestionOptionData where
  id : Uuid
  question_id : Option Uuid
  text : Str
  correct : Bool
  explanation : Option Str
  hash : Digest
deriving DecidableEq

/-- QuestionOptionData::hashable_data (src/lib/src/data.rs lines 356-368):
id bytes, text bytes, one byte for correct, explanation bytes if present. -/
def QuestionOptionData.hashable_data (o : QuestionOptionData) : List Nat :=
  uuidBytes o.id ++ o.text ++ [if o.correct then 1 else 0] ++
    (match o.explanation with
     | some e => e
     | none => [])

/-- QuestionOptionData::new (src/lib/src/data.rs lines 329-342): builds the
record with no question_id and sets the hash from the hashable data. -/
def QuestionOptionData.new (id : Uuid) (text : Str) (correct : Bool)
    (explanation : Option Str) : QuestionOptionData :=
  let d : QuestionOptionData :=
    { id := id, question_id := none, text := text, correct := correct,
      explanation := explanation, hash := [] }
  { d with hash := d.hashable_data }

/-- QuestionOptionData::eq_data (src/lib/src/data.rs lines 344-348). -/
def QuestionOptionData.eq_data (a b : QuestionOptionData) : Bool :=
  a.text == b.text && a.correct == b.correct && a.explanation == b.explanation

/-- QuestionOptionData::set_question_id (src/lib/src/data.rs lines 350-353). -/
def QuestionOptionData.set_question_id (o : QuestionOptionData) (qid : Uuid) :
    QuestionOptionData :=
  { o with question_id := some qid }

/-- RawQuestionOptionData (src/lib/src/raw_data.rs lines 29-38). -/
structure RawQuestionOptionData where
  id : Option Uuid
  text : Str
  correct : Option Bool
  explanation : Option Str
deriving DecidableEq

/-- From RawQuestionOptionData for QuestionOptionData
(src/lib/src/data.rs lines 375-384): absent id is freshly generated, absent
correct defaults to false. -/
def QuestionOptionData.ofRaw (raw : RawQuestionOptionData) : QuestionOptionData :=
  QuestionOptionData.new (raw.id.getD uuidNewV4) raw.text (raw.correct.getD false)
    raw.explanation

/-- From QuestionOptionData for RawQuestionOptionData
(src/lib/src/raw_data.rs lines 40-53): correct = false is serialized as an
absent field. -/
def RawQuestionOptionData.ofData (d : QuestionOptionData) : RawQuestionOptionData :=
  { id := some d.id, text := d.text,
    correct := if d.correct then some d.correct else none,
    explanation := d.explanation }

/-- QuestionData (src/lib/src/data.rs lines 165-179). -/
structure QuestionData where
  id : Uuid
  course_key : Option Str
  evaluation : Str
  source : Str
  asked_at : Option Nat
  text : Str
  image_url : Option Str
  question_options : List QuestionOptionData
  hash : Digest
deriving DecidableEq

/-- QuestionData::hashable_data (src/lib/src/data.rs lines 268-293): id bytes,
text bytes, image bytes if present, child option digests in current order,
evaluation bytes, source bytes, asked_at bytes if present. -/
def QuestionData.hashable_data (q : QuestionData) : List Nat :=
  uuidBytes q.id ++ q.text ++
    (match q.image_url with
     | some u => u
     | none => []) ++
    (q.question_options.map (fun o => o.hash)).flatten ++
    q.evaluation ++ q.source ++
    (match q.asked_at with
     | some d => dateBytes d
     | none => [])

/-- QuestionData::new (src/lib/src/data.rs lines 182-206): course_key starts
unset and the hash is set from the hashable data. -/
def QuestionData.new (id : Uuid) (text : Str) (image_url : Option Str)
    (question_options : List QuestionOptionData) (evaluation : Str)
    (source : Str) (asked_at : Option Nat) : QuestionData :=
  let d : QuestionData :=
    { id := id, course_key := none, evaluation := evaluation, source := source,
      asked_at := asked_at, text := text, image_url := image_url,
      question_options := question_options, hash := [] }
  { d with hash := d.hashable_data }

/-- COURSE_EVALUATION_KEY_SEPARATOR (src/lib/src/data.rs line 438): the byte
of the "/" character. -/
def COURSE_EVALUATION_KEY_SEPARATOR : Str := [47]

/-- CourseEvaluationData::full_key (src/lib/src/data.rs lines 413-415). -/
def fullKey (course_key : Str) (key : Str) : Str :=
  course_key ++ COURSE_EVALUATION_KEY_SEPARATOR ++ key

/-- QuestionData::set_course_key (src/lib/src/data.rs lines 262-266): records
the back-reference and qualifies the evaluation with the course key. -/
def QuestionData.set_course_key (q : QuestionData) (course_key : Str) : QuestionData :=
  { q with course_key := some course_key,
           evaluation := fullKey course_key q.evaluation }

/-- QuestionData::eq_data (src/lib/src/data.rs lines 224-232): same text, same
evaluation, same option count, and every option of the first has some eq_data
match among the options of the second. -/
def QuestionData.eq_data (a b : QuestionData) : Bool :=
  a.text == b.text && a.evaluation == b.evaluation &&
    a.question_options.length == b.question_options.length &&
    a.question_options.all
      (fun x => b.question_options.any (fun y => x.eq_data y))

/-- RawQuestionData: modelled from its construction sites; the snapshot's
src/lib/src/raw_data.rs lines 6-14 carry id, text, options and evaluation, and
the From impl of src/lib/src/data.rs lines 300-314 additionally reads image,
source and asked_at. -/
structure RawQuestionData where
  id : Option Uuid
  text : Str
  options : List RawQuestionOptionData
  evaluation : Str
  image : Option Str
  source : Str
  asked_at : Option Nat
deriving DecidableEq

/-- From RawQuestionData for QuestionData (src/lib/src/data.rs lines 300-314). -/
def QuestionData.ofRaw (raw : RawQuestionData) : QuestionData :=
  QuestionData.new (raw.id.getD uuidNewV4) raw.text raw.image
    (raw.options.map QuestionOptionData.ofRaw) raw.evaluation raw.source
    raw.asked_at

/-- CourseEvaluationData (src/lib/src/data.rs lines 386-392). -/
structure CourseEvaluationData where
  course_key : Option Str
  key : Str
  name : Str
  hash : Digest
deriving DecidableEq

/-- CourseEvaluationData::hashable_data (src/lib/src/data.rs lines 418-425):
the name bytes only. -/
def CourseEvaluationData.hashable_data (e : CourseEvaluationData) : List Nat :=
  e.name

/-- RawCourseEvaluationData: modelled from its construction site,
CourseEvaluationData::new (src/lib/src/data.rs lines 395-406), which reads key
and name. -/
structure RawCourseEvaluationData where
  key : Str
  name : Str
deriving DecidableEq

/-- CourseEvaluationData::new (src/lib/src/data.rs lines 395-406). -/
def CourseEvaluationData.new (raw : RawCourseEvaluationData) : CourseEvaluationData :=
  let d : CourseEvaluationData :=
    { course_key := none, key := raw.key, name := raw.name, hash := [] }
  { d with hash := d.hashable_data }

/-- CourseData (src/lib/src/data.rs lines 20-33). -/
structure CourseData where
  key : Str
  name : Str
  short_name : Str
  aliases : List Str
  year : Option Int
  questions : List QuestionData
  evaluations : List CourseEvaluationData
  hash : Digest
deriving DecidableEq

/-- CourseData::hashable_data (src/lib/src/data.rs lines 133-158): key, name,
short_name, joined aliases, year bytes if present, child question digests,
child evaluation digests. -/
def CourseData.hashable_data (c : CourseData) : List Nat :=
  c.key ++ c.name ++ c.short_name ++ c.aliases.flatten ++
    (match c.year with
     | some y => yearBytes y
     | none => []) ++
    (c.questions.map (fun q => q.hash)).flatten ++
    (c.evaluations.map (fun e => e.hash)).flatten

/-- RawCourseData: modelled from its use in CourseData::new
(src/lib/src/data.rs lines 36-55); the struct itself is not in the snapshot. -/
structure RawCourseData where
  name : Str
  short_name : Str
  aliases : List Str
  year : Option Int
  questions : List RawQuestionData
  evaluations : List RawCourseEvaluationData
deriving DecidableEq

/-- CourseData::new (src/lib/src/data.rs lines 36-55): converts the raw
questions and evaluations and sets the hash from the hashable data. Note that
the hash is computed here, before any deduplication, sorting or trimming. -/
def CourseData.new (key : Str) (raw : RawCourseData) : CourseData :=
  let d : CourseData :=
    { key := key, name := raw.name, short_name := raw.short_name,
      aliases := raw.aliases, year := raw.year,
      questions := raw.questions.map QuestionData.ofRaw,
      evaluations := raw.evaluations.map CourseEvaluationData.new,
      hash := [] }
  { d with hash := d.hashable_data }

/-- Vec::dedup_by inner loop: keeps an element unless eq relates it to the
last kept element (Rust passes the current element first). -/
def dedupLoop {α : Type} (eq : α → α → Bool) (prev : α) : List α → List α
  | [] => []
  | y :: ys => if eq y prev then dedupLoop eq prev ys else y :: dedupLoop eq y ys

/-- Vec::dedup_by: removes all but the first of consecutive elements related
by eq to the last kept element. -/
def dedupBy {α : Type} (eq : α → α → Bool) : List α → List α
  | [] => []
  | x :: xs => x :: dedupLoop eq x xs

/-- QuestionData::deduplicate_options (src/lib/src/data.rs lines 220-222). -/
def QuestionData.deduplicate_options (q : QuestionData) : QuestionData :=
  { q with question_options := dedupBy QuestionOptionData.eq_data q.question_options }

/-- CourseData::deduplicate (src/lib/src/data.rs lines 109-115): dedups the
questions by eq_data (adjacent collapse, before sorting), then dedups each
surviving question's options. -/
def CourseData.deduplicate (c : CourseData) : CourseData :=
  { c with questions :=
      (dedupBy QuestionData.eq_data c.questions).map QuestionData.deduplicate_options }

/-- Comparison of natural numbers as an Ordering. -/
def cmpNat (a b : Nat) : Ordering :=
  if a < b then .lt else if b < a then .gt else .eq

/-- Lexicographic byte comparison, the Ord instance of Rust String. -/
def cmpStr : Str → Str → Ordering
  | [], [] => .eq
  | [], _ :: _ => .lt
  | _ :: _, [] => .gt
  | a :: as_, b :: bs =>
    match cmpNat a b with
    | .eq => cmpStr as_ bs
    | o => o

/-- The Ord instance of Rust Option: None sorts before Some. -/
def cmpOpt {α : Type} (c : α → α → Ordering) : Option α → Option α → Ordering
  | none, none => .eq
  | none, some _ => .lt
  | some _, none => .gt
  | some a, some b => c a b

/-- The question comparator of CourseData::sort (src/lib/src/data.rs lines
92-102): evaluation, then asked_at, then text, then id. -/
def questionCmp (a b : QuestionData) : Ordering :=
  match cmpStr a.evaluation b.evaluation with
  | .eq =>
    match cmpOpt cmpNat a.asked_at b.asked_at with
    | .eq =>
      match cmpStr a.text b.text with
      | .eq => cmpNat a.id b.id
      | o => o
    | o => o
  | o => o

/-- The option comparator of QuestionData::sort_options (src/lib/src/data.rs
lines 208-218): a correct option sorts first, ties among incorrect options
break by text. -/
def optionCmp (a b : QuestionOptionData) : Ordering :=
  if a.correct then .lt else if b.correct then .gt else cmpStr a.text b.text

/-- Stable insertion into a sorted list: the inserted element passes an
element only when the comparator answers gt, mirroring a stable sort_by. -/
def insSorted {α : Type} (cmp : α → α → Ordering) (x : α) : List α → List α
  | [] => [x]
  | y :: ys =>
    match cmp x y with
    | .gt => y :: insSorted cmp x ys
    | _ => x :: y :: ys

/-- Stable sort modelling Vec::sort_by (a stable sort). -/
def sortBy {α : Type} (cmp : α → α → Ordering) : List α → List α
  | [] => []
  | x :: xs => insSorted cmp x (sortBy cmp xs)

/-- QuestionData::sort_options (src/lib/src/data.rs lines 208-218). -/
def QuestionData.sort_options (q : QuestionData) : QuestionData :=
  { q with question_options := sortBy optionCmp q.question_options }

/-- CourseData::sort (src/lib/src/data.rs lines 91-107): sorts the questions,
then sorts each question's options. -/
def CourseData.sort (c : CourseData) : CourseData :=
  { c with questions := (sortBy questionCmp c.questions).map QuestionData.sort_options }

/-- QuestionData::format_text (src/lib/src/data.rs lines 256-260): trims the
texts of the options. -/
def QuestionData.format_text (q : QuestionData) : QuestionData :=
  { q with question_options :=
      q.question_options.map (fun o => { o with text := strTrim o.text }) }

/-- CourseData::format_text (src/lib/src/data.rs lines 125-130): trims each
question text and each option text. The hashes set by the constructors are not
recomputed here or anywhere after construction. -/
def CourseData.format_text (c : CourseData) : CourseData :=
  { c with questions :=
      c.questions.map (fun q => QuestionData.format_text { q with text := strTrim q.text }) }

/-- The canonicalizer: the deduplicate, sort, format_text sequence applied by
CourseData::load_and_write_formatted (src/lib/src/data.rs lines 62-64). -/
def CourseData.canonicalize (c : CourseData) : CourseData :=
  c.deduplicate.sort.format_text

/-- The validation errors of QuestionData::check (src/lib/src/data.rs lines
234-254), carrying the offending question id and the offending count. -/
inductive DataError : Type
  | optionCount (id : Uuid) (count : Nat)
  | correctCount (id : Uuid) (count : Nat)
deriving DecidableEq

/-- QuestionData::check (src/lib/src/data.rs lines 234-254): between 2 and 5
options, exactly one of them correct. -/
def QuestionData.check (q : QuestionData) : Except DataError Unit :=
  if q.question_options.length < 2 ∨ 5 < q.question_options.length then
    .error (.optionCount q.id q.question_options.length)
  else
    let correct_count := (q.question_options.filter (fun o => o.correct)).length
    if correct_count ≠ 1 then .error (.correctCount q.id correct_count)
    else .ok ()

/-- The question loop of CourseData::check (src/lib/src/data.rs lines
117-123): fails on the first invalid question. -/
def checkQuestions : List QuestionData → Except DataError Unit
  | [] => .ok ()
  | q :: qs =>
    match q.check with
    | .error e => .error e
    | .ok _ => checkQuestions qs

/-- CourseData::check (src/lib/src/data.rs lines 117-123). -/
def CourseData.check (c : CourseData) : Except DataError Unit :=
  checkQuestions c.questions

/-- CourseData::load_and_write_formatted (src/lib/src/data.rs lines 57-69):
loads (computing every hash), validates, canonicalizes, and on success returns
the canonicalized course, which is also what is written back to the file. -/
def CourseData.load_and_write_formatted (key : Str) (raw : RawCourseData) :
    Except DataError CourseData :=
  let data := CourseData.new key raw
  match data.check with
  | .error e => .error e
  | .ok _ => .ok data.canonicalize

/-- load_courses_data_and_write_formatted (src/lib/src/helpers.rs lines
29-34): processes the directory entries in order, writing each formatted file
as it goes and stopping at the first error. The second component records the
files actually rewritten, in order. -/
def load_courses_data_and_write_formatted :
    List (Str × RawCourseData) → Except DataError (List CourseData) × List (Str × CourseData)
  | [] => (.ok [], [])
  | (key, raw) :: rest =>
    match CourseData.load_and_write_formatted key raw with
    | .error e => (.error e, [])
    | .ok d =>
      let r := load_courses_data_and_write_formatted rest
      (match r.1 with
       | .ok ds => .ok (d :: ds)
       | .error e => .error e,
       (key, d) :: r.2)

/-- The CourseEvaluationData value built by the sync loop (src/src/sync.rs
lines 54-57): the struct literal there carries exactly a course key and a
fully qualified evaluation key; the snapshot's lib data.rs holds an earlier
four-field revision of this type, so the sync-time shape is modelled from
src/src/sync.rs itself. -/
structure SyncCourseEvaluationData where
  course_key : Str
  key : Str
deriving DecidableEq

/-- SyncMetadata: modelled from its use in src/src/sync.rs lines 23-81 (the
snapshot's lib/src/sync.rs lines 20-25 is an earlier revision without the
evaluation set): id-to-hash maps per level plus the known evaluation keys.
Maps are association lists, the set is a list. -/
structure SyncMetadata where
  courses_metadata : List (Str × Digest)
  questions_metadata : List (Uuid × Digest)
  question_options_metadata : List (Uuid × Digest)
  course_evaluations : List Str
deriving DecidableEq

/-- SyncData: modelled from its construction in src/src/sync.rs lines 88-100
(the snapshot's lib/src/sync.rs is an earlier revision without the evaluation
fields). -/
structure SyncData where
  courses_to_sync : List CourseData
  courses_to_delete : List Str
  questions_to_sync : List QuestionData
  questions_to_delete : List Uuid
  question_options_to_sync : List QuestionOptionData
  question_options_to_delete : List Uuid
  course_evaluations_to_sync : List SyncCourseEvaluationData
  course_evaluations_to_delete : List Str
deriving DecidableEq

/-- HashMap::remove: returns the removed value and the remaining entries. -/
def lookupRemove {α β : Type} [DecidableEq α] :
    List (α × β) → α → Option β × List (α × β)
  | [], _ => (none, [])
  | p :: rest, key =>
    if p.1 = key then (some p.2, rest)
    else
      let r := lookupRemove rest key
      (r.1, p :: r.2)

/-- HashSet::insert on the evaluation upsert set (src/src/sync.rs line 54). -/
def insertEval (l : List SyncCourseEvaluationData) (e : SyncCourseEvaluationData) :
    List SyncCourseEvaluationData :=
  if e ∈ l then l else l ++ [e]

/-- The mutable loop state of sync (src/src/sync.rs lines 13-18): the shrinking
remote metadata plus the four upsert accumulators. -/
structure SyncState where
  md : SyncMetadata
  courses_to_sync : List CourseData
  questions_to_sync : List QuestionData
  question_options_to_sync : List QuestionOptionData
  course_evaluations_to_sync : List SyncCourseEvaluationData
deriving DecidableEq

/-- The option loop body of sync (src/src/sync.rs lines 40-51): bind the
back-reference, remove the id from the remote option map, and upsert unless
the removed hash matches. -/
def processOption (qid : Uuid) (st : SyncState) (o : QuestionOptionData) : SyncState :=
  let o := o.set_question_id qid
  let r := lookupRemove st.md.question_options_metadata o.id
  let st := { st with md := { st.md with question_options_metadata := r.2 } }
  if r.1 = some o.hash then st
  else { st with question_options_to_sync := st.question_options_to_sync ++ [o] }

/-- The question loop body of sync (src/src/sync.rs lines 28-60): bind the
course key (qualifying the evaluation), remove the qualified evaluation from
the remote evaluation set, remove the question id from the remote question
map, walk all options, and finally record the evaluation and the drained
question as upserts unless the question is skipped. A question is skipped when
its removed remote hash matches, and also, whatever its own hash, when the
owning course was skipped. -/
def processQuestion (ckey : Str) (skip_course : Bool) (st : SyncState)
    (q : QuestionData) : SyncState :=
  let q := q.set_course_key ckey
  let st := { st with md :=
    { st.md with course_evaluations := st.md.course_evaluations.erase q.evaluation } }
  let r := lookupRemove st.md.questions_metadata q.id
  let skip_question :=
    match r.1 with
    | some h => if h = q.hash then true else skip_course
    | none => skip_course
  let st := { st with md := { st.md with questions_metadata := r.2 } }
  let st := q.question_options.foldl (processOption q.id) st
  if skip_question then st
  else
    { st with
      course_evaluations_to_sync :=
        insertEval st.course_evaluations_to_sync ⟨ckey, q.evaluation⟩,
      questions_to_sync := st.questions_to_sync ++ [{ q with question_options := [] }] }

/-- The course loop body of sync (src/src/sync.rs lines 22-65): remove the
course key from the remote course map, mark the course skipped when the
removed hash matches, walk all questions, and upsert the drained course unless
skipped. -/
def processCourse (st : SyncState) (c : CourseData) : SyncState :=
  let r := lookupRemove st.md.courses_metadata c.key
  let skip_course := r.1 = some c.hash
  let st := { st with md := { st.md with courses_metadata := r.2 } }
  let st := c.questions.foldl (processQuestion c.key skip_course) st
  if skip_course then st
  else { st with courses_to_sync := st.courses_to_sync ++ [{ c with questions := [] }] }

/-- The diff engine of sync (src/src/sync.rs lines 22-100): walk every local
course against the remote metadata, then turn whatever remains in the remote
maps into deletions, and delete the remaining remote evaluation keys not used
by any upserted question. -/
def syncDiff (courses : List CourseData) (md : SyncMetadata) : SyncData :=
  let st := courses.foldl processCourse
    { md := md, courses_to_sync := [], questions_to_sync := [],
      question_options_to_sync := [], course_evaluations_to_sync := [] }
  { courses_to_sync := st.courses_to_sync
    courses_to_delete := st.md.courses_metadata.map (fun p => p.1)
    questions_to_sync := st.questions_to_sync
    questions_to_delete := st.md.questions_metadata.map (fun p => p.1)
    question_options_to_sync := st.question_options_to_sync
    question_options_to_delete := st.md.question_options_metadata.map (fun p => p.1)
    course_evaluations_to_sync := st.course_evaluations_to_sync
    course_evaluations_to_delete :=
      st.md.course_evaluations.filter
        (fun k => decide (k ∉ st.course_evaluations_to_sync.map (fun e => e.key))) }

/-- The sync run up to the transport boundary (src/src/sync.rs lines 11-104):
format-and-load every course (writing files as it goes), and only on full
success compute the changeset handed to the transport. -/
def syncRun (entries : List (Str × RawCourseData)) (md : SyncMetadata) :
    Except DataError SyncData × List (Str × CourseData) :=
  let r := load_courses_data_and_write_formatted entries
  match r.1 with
  | .error e => (.error e, r.2)
  | .ok cs => (.ok (syncDiff cs md), r.2)

deriving instance DecidableEq for Except

/-- Concrete option for the C1 diff scenario: the correct option o1 of q1,
with remote hash absent. -/
def optionC1 : QuestionOptionData :=
  { id := 2, question_id := none, text := strOf "a",
    correct := true, explanation := none, hash := [9] }

/-- Concrete question for the C1 diff scenario: q1 with evaluation midterm,
whose remote hash matches. -/
def questionC1 : QuestionData :=
  { id := 1, course_key := none, evaluation := strOf "midterm", source := [],
    asked_at := none, text := strOf "q", image_url := none,
    question_options := [optionC1], hash := [7] }

/-- Concrete course for the C1 diff scenario: c1 with local hash H1 = [1]. -/
def courseC1 : CourseData :=
  { key := strOf "c1", name := strOf "Course", short_name := strOf "C",
    aliases := [], year := none, questions := [questionC1], evaluations := [],
    hash := [1] }

/-- Concrete remote snapshot for the C1 diff scenario: course map with a stale
hash H0 = [0], question map matching q1, empty option map, and evaluation set
with the used midterm key and the orphaned final key. -/
def metadataC1 : SyncMetadata :=
  { courses_metadata := [(strOf "c1", [0])],
    questions_metadata := [(1, [7])],
    question_options_metadata := [],
    course_evaluations := [strOf "c1/midterm", strOf "c1/final"] }

/-- C1 counterexample: in the spec's diff-correctness scenario the claimed
evaluation upsert set, the qualified midterm key, is not what the code
produces; the evaluation upsert set the diff engine returns is empty, because
an upsert evaluation is only recorded for a question that is itself upserted,
and q1 is skipped. -/
theorem claim_C1_counterexample :
    (syncDiff [courseC1] metadataC1).course_evaluations_to_sync ≠
      [{ course_key := strOf "c1", key := strOf "c1/midterm" }] ∧
    (syncDiff [courseC1] metadataC1).course_evaluations_to_sync = [] := by
  decide

/-- C1 (amended): in the spec's diff-correctness scenario the changeset is:
course upsert c1 (with its questions drained), no question upserts, option
upsert o1 (bound to q1), EMPTY evaluation upserts (q1 is unchanged, so its
midterm evaluation is merely removed from the remote set and retained there),
evaluation delete of the final key, and no course, question or option
deletions. -/
theorem claim_C1_amended :
    syncDiff [courseC1] metadataC1 =
      { courses_to_sync := [{ courseC1 with questions := [] }]
        courses_to_delete := []
        questions_to_sync := []
        questions_to_delete := []
        question_options_to_sync := [{ optionC1 with question_id := some 1 }]
        question_options_to_delete := []
        course_evaluations_to_sync := []
        course_evaluations_to_delete := [strOf "c1/final"] } := by
  decide

/-- Concrete course for the C2 counterexample: the same single-question course
but with local hash [1] matching the remote course hash, while the remote
question hash [9] is stale (local is [7]). -/
def metadataC2 : SyncMetadata :=
  { courses_metadata := [(strOf "c1", [1])],
    questions_metadata := [(1, [9])],
    question_options_metadata := [],
    course_evaluations := [] }

/-- C2 counterexample: under a course marked unchanged (remote course hash
equals local course hash), a question whose remote hash is stale is NOT placed
in the question-upsert list: the code skips it, while the claim demands an
upsert. It is not a deletion candidate either. -/
theorem claim_C2_counterexample :
    ¬ (1 : Uuid) ∈ ((syncDiff [courseC1] metadataC2).questions_to_sync.map
        (fun q => q.id)) ∧
    (syncDiff [courseC1] metadataC2).questions_to_sync = [] ∧
    (syncDiff [courseC1] metadataC2).questions_to_delete = [] := by
  decide

/-- C9: binding operations never touch the stored hash. set_course_key only
fills the course_key back-reference and qualifies the evaluation, leaving the
hash and every other field unchanged; set_question_id only fills the
question_id back-reference, leaving the hash and every other field unchanged.
The hash fields compared by the diff engine are therefore stable regardless of
how an entity is attached. -/
theorem claim_C9_set_key_preserves_hash (q : QuestionData) (ck : Str)
    (o : QuestionOptionData) (qid : Uuid) :
    (q.set_course_key ck).hash = q.hash ∧
    (q.set_course_key ck).id = q.id ∧
    (q.set_course_key ck).text = q.text ∧
    (q.set_course_key ck).source = q.source ∧
    (q.set_course_key ck).asked_at = q.asked_at ∧
    (q.set_course_key ck).image_url = q.image_url ∧
    (q.set_course_key ck).question_options = q.question_options ∧
    (q.set_course_key ck).course_key = some ck ∧
    (q.set_course_key ck).evaluation = fullKey ck q.evaluation ∧
    (o.set_question_id qid).hash = o.hash ∧
    (o.set_question_id qid).id = o.id ∧
    (o.set_question_id qid).text = o.text ∧
    (o.set_question_id qid).correct = o.correct ∧
    (o.set_question_id qid).explanation = o.explanation ∧
    (o.set_question_id qid).question_id = some qid := by
  repeat first
  | apply And.intro rfl
  | exact rfl

/-- C10: converting an option to its raw serialized form and parsing it back
preserves id, text, correct and explanation, and, for an option whose stored
hash is the hash of its own content (as every constructed option's hash is),
the stored hash as well. A false correct flag is serialized as an absent field
and an absent correct field parses back to false; an absent explanation stays
absent. -/
theorem claim_C10_option_roundtrip (o : QuestionOptionData)
    (h : o.hash = QuestionOptionData.hashable_data o) :
    (QuestionOptionData.ofRaw (RawQuestionOptionData.ofData o)).id = o.id ∧
    (QuestionOptionData.ofRaw (RawQuestionOptionData.ofData o)).text = o.text ∧
    (QuestionOptionData.ofRaw (RawQuestionOptionData.ofData o)).correct = o.correct ∧
    (QuestionOptionData.ofRaw (RawQuestionOptionData.ofData o)).explanation =
      o.explanation ∧
    (QuestionOptionData.ofRaw (RawQuestionOptionData.ofData o)).hash = o.hash ∧
    ((RawQuestionOptionData.ofData o).correct = none ↔ o.correct = false) ∧
    ((RawQuestionOptionData.ofData o).explanation = none ↔ o.explanation = none) := by
  cases o with
  | mk id qid text correct expl hash =>
    cases correct <;>
      simp [QuestionOptionData.ofRaw, RawQuestionOptionData.ofData,
        QuestionOptionData.new, QuestionOptionData.hashable_data] at h ⊢ <;>
      simp [h]

/-- Witness for C10 at a concrete constructed option. -/
theorem claim_C10_option_roundtrip_witness :
    (QuestionOptionData.new 5 (strOf "x") false none).hash =
      QuestionOptionData.hashable_data (QuestionOptionData.new 5 (strOf "x") false none) ∧
    (QuestionOptionData.ofRaw (RawQuestionOptionData.ofData
      (QuestionOptionData.new 5 (strOf "x") false none))).correct =
      (QuestionOptionData.new 5 (strOf "x") false none).correct :=
  ⟨by decide,
   (claim_C10_option_roundtrip (QuestionOptionData.new 5 (strOf "x") false none)
     (by decide)).2.2.1⟩

/-- A correct raw option used by the concrete raw courses below. -/
def rawOptionA : RawQuestionOptionData :=
  { id := some 10, text := strOf "a", correct := some true, explanation := none }

/-- An incorrect raw option. -/
def rawOptionB : RawQuestionOptionData :=
  { id := some 11, text := strOf "b", correct := none, explanation := none }

/-- The same incorrect raw option with a trailing space in its text. -/
def rawOptionBspace : RawQuestionOptionData :=
  { id := some 11, text := strOf "b ", correct := none, explanation := none }

/-- Builds a concrete raw question with explicit id, text and options. -/
def mkRawQuestion (i : Uuid) (t : String) (os : List RawQuestionOptionData) :
    RawQuestionData :=
  { id := some i, text := strOf t, options := os, evaluation := strOf "midterm",
    image := none, source := strOf "s", asked_at := none }

/-- Builds a concrete raw course around the given questions. -/
def mkRawCourse (qs : List RawQuestionData) : RawCourseData :=
  { name := strOf "N", short_name := strOf "S", aliases := [], year := none,
    questions := qs, evaluations := [] }

/-- C4 counterexample: these two raw courses differ only in the trailing
whitespace of one option text, yet loading and canonicalizing them yields
different hashes at every level (course, question, option), because the
hashes are computed by the constructors before format_text trims anything.
Their canonicalized texts nevertheless agree. -/
theorem claim_C4_counterexample :
    (CourseData.new (strOf "k")
        (mkRawCourse [mkRawQuestion 1 "q" [rawOptionA, rawOptionB]])).canonicalize.hash ≠
      (CourseData.new (strOf "k")
        (mkRawCourse [mkRawQuestion 1 "q" [rawOptionA, rawOptionBspace]])).canonicalize.hash ∧
    (CourseData.new (strOf "k")
        (mkRawCourse [mkRawQuestion 1 "q" [rawOptionA, rawOptionB]])).canonicalize.questions.map
          (fun q => (q.hash, q.question_options.map (fun o => o.hash))) ≠
      (CourseData.new (strOf "k")
        (mkRawCourse [mkRawQuestion 1 "q" [rawOptionA, rawOptionBspace]])).canonicalize.questions.map
          (fun q => (q.hash, q.question_options.map (fun o => o.hash))) ∧
    (CourseData.new (strOf "k")
        (mkRawCourse [mkRawQuestion 1 "q" [rawOptionA, rawOptionB]])).canonicalize.questions.map
          (fun q => (q.text, q.question_options.map (fun o => o.text))) =
      (CourseData.new (strOf "k")
        (mkRawCourse [mkRawQuestion 1 "q" [rawOptionA, rawOptionBspace]])).canonicalize.questions.map
          (fun q => (q.text, q.question_options.map (fun o => o.text))) := by
  refine ⟨by decide, by decide, by decide⟩

/-- C5 counterexample: these two raw courses differ only in the order of the
two options of their single question, yet loading and canonicalizing them
yields different question hashes and a different course hash, because hashes
are computed by the constructors over the raw order, before sorting. The
canonicalized option sequences themselves agree. -/
theorem claim_C5_counterexample :
    (CourseData.new (strOf "k")
        (mkRawCourse [mkRawQuestion 1 "q" [rawOptionA, rawOptionB]])).canonicalize.questions.map
          (fun q => q.hash) ≠
      (CourseData.new (strOf "k")
        (mkRawCourse [mkRawQuestion 1 "q" [rawOptionB, rawOptionA]])).canonicalize.questions.map
          (fun q => q.hash) ∧
    (CourseData.new (strOf "k")
        (mkRawCourse [mkRawQuestion 1 "q" [rawOptionA, rawOptionB]])).canonicalize.hash ≠
      (CourseData.new (strOf "k")
        (mkRawCourse [mkRawQuestion 1 "q" [rawOptionB, rawOptionA]])).canonicalize.hash ∧
    (CourseData.new (strOf "k")
        (mkRawCourse [mkRawQuestion 1 "q" [rawOptionA, rawOptionB]])).canonicalize.questions.map
          (fun q => q.question_options) =
      (CourseData.new (strOf "k")
        (mkRawCourse [mkRawQuestion 1 "q" [rawOptionB, rawOptionA]])).canonicalize.questions.map
          (fun q => q.question_options) := by
  refine ⟨by decide, by decide, by decide⟩

/-- Decides whether two distinct positions of the list hold eq_data-duplicate
questions. -/
def hasDuplicateQuestion (l : List QuestionData) : Bool :=
  l.enum.any (fun p => l.enum.any
    (fun p2 => p.1 ≠ p2.1 && QuestionData.eq_data p.2 p2.2))

/-- C6 counterexample: a course whose first and third raw questions are
content-duplicates (same text, evaluation and options, different ids) with a
different question between them passes validation, and after the full
canonicalizer run the two duplicates BOTH survive: deduplication only
collapses adjacent duplicates and runs before sorting, so the final course
still contains two eq_data-equal questions. -/
theorem claim_C6_counterexample :
    (CourseData.new (strOf "k")
        (mkRawCourse [mkRawQuestion 1 "dup" [rawOptionA, rawOptionB],
          mkRawQuestion 2 "other" [rawOptionA, rawOptionB],
          mkRawQuestion 3 "dup" [rawOptionA, rawOptionB]])).check = .ok () ∧
    hasDuplicateQuestion
      (CourseData.new (strOf "k")
        (mkRawCourse [mkRawQuestion 1 "dup" [rawOptionA, rawOptionB],
          mkRawQuestion 2 "other" [rawOptionA, rawOptionB],
          mkRawQuestion 3 "dup" [rawOptionA, rawOptionB]])).canonicalize.questions = true ∧
    (CourseData.new (strOf "k")
        (mkRawCourse [mkRawQuestion 1 "dup" [rawOptionA, rawOptionB],
          mkRawQuestion 2 "other" [rawOptionA, rawOptionB],
          mkRawQuestion 3 "dup" [rawOptionA, rawOptionB]])).canonicalize.questions.length
      = 3 := by
  refine ⟨by decide, by decide, by decide⟩

/-- First question of the C7 counterexample course: text with a leading
space. -/
def questionC7a : QuestionData :=
  { id := 1, course_key := none, evaluation := [], source := [],
    asked_at := none, text := strOf " b", image_url := none,
    question_options := [], hash := [] }

/-- Second question of the C7 counterexample course. -/
def questionC7b : QuestionData :=
  { id := 2, course_key := none, evaluation := [], source := [],
    asked_at := none, text := strOf "a", image_url := none,
    question_options := [], hash := [] }

/-- Course on which the canonicalizer is not idempotent. -/
def courseC7 : CourseData :=
  { key := [], name := [], short_name := [], aliases := [], year := none,
    questions := [questionC7a, questionC7b], evaluations := [], hash := [] }

/-- C7 counterexample: the canonicalizer is not idempotent. Sorting happens
before trimming, so the first pass orders the questions by their untrimmed
texts (space-b before a) and then trims; the second pass re-sorts the now
trimmed texts into the other order. -/
theorem claim_C7_counterexample :
    courseC7.canonicalize.canonicalize ≠ courseC7.canonicalize ∧
    courseC7.canonicalize.questions.map (fun q => q.text) =
      [strOf "b", strOf "a"] ∧
    courseC7.canonicalize.canonicalize.questions.map (fun q => q.text) =
      [strOf "a", strOf "b"] := by
  refine ⟨by decide, by decide, by decide⟩

/-- A raw course whose single question has only one option and therefore
fails validation. -/
def rawCourseInvalid : RawCourseData := mkRawCourse [mkRawQuestion 1 "q" [rawOptionA]]

/-- A raw course that passes validation. -/
def rawCourseValid : RawCourseData :=
  mkRawCourse [mkRawQuestion 1 "q" [rawOptionA, rawOptionB]]

/-- C8 counterexample: with a valid course file followed by an invalid one,
the run does abort with a validation error and produces no changeset, but the
valid course file processed first has already been rewritten (and hashed), so
the abort is not free of partial writes as the claim states. -/
theorem claim_C8_counterexample :
    (CourseData.new (strOf "k2") rawCourseInvalid).check = .error (.optionCount 1 1) ∧
    (syncRun [(strOf "k1", rawCourseValid), (strOf "k2", rawCourseInvalid)]
        metadataC1).1 = .error (.optionCount 1 1) ∧
    (syncRun [(strOf "k1", rawCourseValid), (strOf "k2", rawCourseInvalid)]
        metadataC1).2 =
      [(strOf "k1", (CourseData.new (strOf "k1") rawCourseValid).canonicalize)] ∧
    (syncRun [(strOf "k1", rawCourseValid), (strOf "k2", rawCourseInvalid)]
        metadataC1).2 ≠ [] := by
  refine ⟨by decide, by decide, by decide, by decide⟩

/-- The dedup loop output, prefixed with the last kept element, never has two
consecutive elements related by eq (current element first, as in the code). -/
theorem dedupLoop_chain {α : Type} (eq : α → α → Bool) :
    ∀ (l : List α) (prev : α),
      List.Chain' (fun a b => eq b a = false) (prev :: dedupLoop eq prev l)
  | [], _ => by simp [dedupLoop]
  | y :: ys, prev => by
    by_cases h : eq y prev = true
    · simpa [dedupLoop, h] using dedupLoop_chain eq ys prev
    · rw [Bool.not_eq_true] at h
      have hstep : dedupLoop eq prev (y :: ys) = y :: dedupLoop eq y ys := by
        simp [dedupLoop, h]
      rw [hstep, List.chain'_cons]
      exact ⟨h, dedupLoop_chain eq ys y⟩

/-- The dedup loop removes nothing from a list already free of consecutive
duplicates relative to the last kept element. -/
theorem dedupLoop_eq_self {α : Type} (eq : α → α → Bool) :
    ∀ (l : List α) (prev : α),
      List.Chain' (fun a b => eq b a = false) (prev :: l) →
      dedupLoop eq prev l = l
  | [], _, _ => rfl
  | y :: ys, prev, h => by
    rw [List.chain'_cons] at h
    simp [dedupLoop, h.1, dedupLoop_eq_self eq ys y h.2]

/-- dedup_by output never has two consecutive elements related by eq. -/
theorem dedupBy_chain {α : Type} (eq : α → α → Bool) (l : List α) :
    List.Chain' (fun a b => eq b a = false) (dedupBy eq l) := by
  cases l with
  | nil => simp [dedupBy]
  | cons x xs => exact dedupLoop_chain eq xs x

/-- dedup_by removes nothing from a list with no two eq-related elements. -/
theorem dedupBy_eq_self {α : Type} (eq : α → α → Bool) (l : List α)
    (h : l.Pairwise (fun a b => eq b a = false)) : dedupBy eq l = l := by
  cases l with
  | nil => rfl
  | cons x xs =>
    simp only [dedupBy]
    rw [dedupLoop_eq_self eq xs x h.chain']

/-- The dedup loop output is a sublist of its input. -/
theorem dedupLoop_sublist {α : Type} (eq : α → α → Bool) :
    ∀ (l : List α) (prev : α), (dedupLoop eq prev l).Sublist l
  | [], _ => List.Sublist.refl []
  | y :: ys, prev => by
    by_cases h : eq y prev = true
    · simp only [dedupLoop, h, if_true]
      exact (dedupLoop_sublist eq ys prev).cons y
    · rw [Bool.not_eq_true] at h
      have hstep : dedupLoop eq prev (y :: ys) = y :: dedupLoop eq y ys := by
        simp [dedupLoop, h]
      rw [hstep]
      exact (dedupLoop_sublist eq ys y).cons₂ y

/-- dedup_by keeps a sublist of its input. -/
theorem dedupBy_sublist {α : Type} (eq : α → α → Bool) (l : List α) :
    (dedupBy eq l).Sublist l := by
  cases l with
  | nil => exact List.Sublist.refl []
  | cons x xs => exact (dedupLoop_sublist eq xs x).cons₂ x

/-- Mapping a function that fixes every element of a list is the identity. -/
theorem map_eq_self_of_mem {α : Type} (f : α → α) :
    ∀ (l : List α), (∀ x ∈ l, f x = x) → l.map f = l
  | [], _ => rfl
  | x :: xs, h => by
    rw [List.map_cons, h x (by simp),
      map_eq_self_of_mem f xs (fun y hy => h y (by simp [hy]))]

/-- C6 (amended): deduplication guarantees only the absence of ADJACENT
content-duplicates: after CourseData::deduplicate, no two consecutive
questions (in the pre-sort traversal order) are eq_data-duplicates, and no two
consecutive options of any question are eq_data-duplicates. Duplicates that
are not adjacent in source order can survive the whole canonicalizer (see the
counterexample). -/
theorem claim_C6_amended (c : CourseData) :
    List.Chain' (fun a b => QuestionData.eq_data b a = false)
      (dedupBy QuestionData.eq_data c.questions) ∧
    ∀ q ∈ c.deduplicate.questions,
      List.Chain' (fun a b => QuestionOptionData.eq_data b a = false)
        q.question_options := by
  refine ⟨dedupBy_chain _ _, ?_⟩
  intro q hq
  simp only [CourseData.deduplicate, List.mem_map] at hq
  obtain ⟨q0, _, rfl⟩ := hq
  exact dedupBy_chain _ _

/-- Deduplication removes nothing from a course with no duplicate questions
and no duplicate options. -/
theorem deduplicate_noop (c : CourseData)
    (hq : c.questions.Pairwise (fun a b => QuestionData.eq_data b a = false))
    (ho : ∀ q ∈ c.questions,
      q.question_options.Pairwise (fun a b => QuestionOptionData.eq_data b a = false)) :
    c.deduplicate = c := by
  have h1 : dedupBy QuestionData.eq_data c.questions = c.questions :=
    dedupBy_eq_self _ _ hq
  have h2 : c.questions.map QuestionData.deduplicate_options = c.questions := by
    refine map_eq_self_of_mem _ _ ?_
    intro q hqmem
    have := dedupBy_eq_self _ _ (ho q hqmem)
    simp [QuestionData.deduplicate_options, this]
  simp [CourseData.deduplicate, h1, h2]

/-- C7 (amended): the deduplication step applied to a course that already
contains no duplicates (no two questions eq_data-related, and no two options
of any question eq_data-related) removes nothing. The full canonicalizer is
NOT idempotent (see the counterexample): sorting precedes trimming and can
create new adjacencies, so applying it twice can differ from applying it
once. -/
theorem claim_C7_amended (c : CourseData)
    (hq : c.questions.Pairwise (fun a b => QuestionData.eq_data b a = false))
    (ho : ∀ q ∈ c.questions,
      q.question_options.Pairwise (fun a b => QuestionOptionData.eq_data b a = false)) :
    c.deduplicate = c :=
  deduplicate_noop c hq ho

/-- Witness for C7 (amended) at the concrete duplicate-free course of the C7
counterexample. -/
theorem claim_C7_amended_witness : courseC7.deduplicate = courseC7 :=
  claim_C7_amended courseC7 (by decide) (by decide)

/-- The files written by the loading driver are exactly the canonicalized
forms of the longest prefix of entries that pass validation, written in
order and regardless of later failures. -/
theorem loadCourses_writes :
    ∀ entries : List (Str × RawCourseData),
      (load_courses_data_and_write_formatted entries).2 =
        (entries.takeWhile
          (fun p => decide ((CourseData.new p.1 p.2).check = Except.ok ()))).map
          (fun p => (p.1, (CourseData.new p.1 p.2).canonicalize))
  | [] => rfl
  | (key, raw) :: rest => by
    cases hc : (CourseData.new key raw).check with
    | error e =>
      simp [load_courses_data_and_write_formatted,
        CourseData.load_and_write_formatted, hc, List.takeWhile]
    | ok u =>
      cases u
      simp [load_courses_data_and_write_formatted,
        CourseData.load_and_write_formatted, hc, List.takeWhile,
        loadCourses_writes rest]

/-- If some entry fails validation, the loading driver returns an error. -/
theorem loadCourses_error_of_invalid :
    ∀ entries : List (Str × RawCourseData),
      (∃ p ∈ entries, (CourseData.new p.1 p.2).check ≠ Except.ok ()) →
      ∃ e, (load_courses_data_and_write_formatted entries).1 = Except.error e
  | [], h => by simp at h
  | (key, raw) :: rest, h => by
    cases hc : (CourseData.new key raw).check with
    | error e =>
      exact ⟨e, by simp [load_courses_data_and_write_formatted,
        CourseData.load_and_write_formatted, hc]⟩
    | ok u =>
      cases u
      have hrest : ∃ p ∈ rest, (CourseData.new p.1 p.2).check ≠ Except.ok () := by
        obtain ⟨p, hp, hne⟩ := h
        rcases List.mem_cons.mp hp with rfl | hmem
        · exact absurd hc hne
        · exact ⟨p, hmem, hne⟩
      obtain ⟨e, he⟩ := loadCourses_error_of_invalid rest hrest
      refine ⟨e, ?_⟩
      simp only [load_courses_data_and_write_formatted,
        CourseData.load_and_write_formatted, hc]
      rw [he]

/-- C8 (amended): if any question of any course fails validation, the run
aborts with a validation error before any diffing: no changeset is produced
and nothing is handed to the transport. However, hashing happens during
loading, and every course file strictly before the first failing one has
already been rewritten in canonicalized form; only the failing course and the
ones after it are left unwritten (see the counterexample for a concrete
partial write). -/
theorem claim_C8_amended (entries : List (Str × RawCourseData)) (md : SyncMetadata)
    (h : ∃ p ∈ entries, (CourseData.new p.1 p.2).check ≠ Except.ok ()) :
    (∃ e, (syncRun entries md).1 = Except.error e) ∧
    (syncRun entries md).2 =
      (entries.takeWhile
        (fun p => decide ((CourseData.new p.1 p.2).check = Except.ok ()))).map
        (fun p => (p.1, (CourseData.new p.1 p.2).canonicalize)) := by
  obtain ⟨e, he⟩ := loadCourses_error_of_invalid entries h
  constructor
  · exact ⟨e, by simp [syncRun, he]⟩
  · rw [show (syncRun entries md).2 = (load_courses_data_and_write_formatted entries).2
        from by simp [syncRun, he]]
    exact loadCourses_writes entries

/-- Witness for C8 (amended) at the concrete two-entry run whose second
course is invalid. -/
theorem claim_C8_amended_witness :
    (∃ p ∈ [(strOf "k1", rawCourseValid), (strOf "k2", rawCourseInvalid)],
      (CourseData.new p.1 p.2).check ≠ Except.ok ()) ∧
    ((∃ e, (syncRun [(strOf "k1", rawCourseValid), (strOf "k2", rawCourseInvalid)]
        metadataC1).1 = Except.error e) ∧
     (syncRun [(strOf "k1", rawCourseValid), (strOf "k2", rawCourseInvalid)]
        metadataC1).2 =
      ([(strOf "k1", rawCourseValid), (strOf "k2", rawCourseInvalid)].takeWhile
        (fun p => decide ((CourseData.new p.1 p.2).check = Except.ok ()))).map
        (fun p => (p.1, (CourseData.new p.1 p.2).canonicalize))) :=
  ⟨⟨(strOf "k2", rawCourseInvalid), by decide, by decide⟩,
   claim_C8_amended [(strOf "k1", rawCourseValid), (strOf "k2", rawCourseInvalid)]
     metadataC1 ⟨(strOf "k2", rawCourseInvalid), by decide, by decide⟩⟩

/-- All local question ids of a course, in walk order. -/
def questionIdsOf (c : CourseData) : List Uuid :=
  c.questions.map (fun q => q.id)

/-- All local option ids of a course, in walk order. -/
def optionIdsOf (c : CourseData) : List Uuid :=
  (c.questions.map (fun q => q.question_options.map (fun o => o.id))).flatten

/-- Removing a key from a map with no duplicate keys filters out exactly the
entries with that key. -/
theorem lookupRemove_snd {α β : Type} [DecidableEq α] :
    ∀ (l : List (α × β)) (k : α), (l.map (fun p => p.1)).Nodup →
      (lookupRemove l k).2 = l.filter (fun p => decide (p.1 ≠ k))
  | [], _, _ => rfl
  | p :: rest, k, h => by
    simp only [List.map_cons, List.nodup_cons] at h
    by_cases hk : p.1 = k
    · have hall : List.filter (fun q => decide (q.1 ≠ k)) rest = rest := by
        refine List.filter_eq_self.mpr ?_
        intro q hq
        have hqm : q.1 ∈ rest.map (fun x => x.1) := List.mem_map_of_mem _ hq
        simp only [decide_eq_true_eq]
        intro he
        exact h.1 (hk ▸ he ▸ hqm)
      have h1 : (lookupRemove (p :: rest) k).2 = rest := by
        simp [lookupRemove, hk]
      have h2 : List.filter (fun q => decide (q.1 ≠ k)) (p :: rest) =
          List.filter (fun q => decide (q.1 ≠ k)) rest := by
        simp [List.filter_cons, hk]
      rw [h1, h2, hall]
    · have h1 : (lookupRemove (p :: rest) k).2 = p :: (lookupRemove rest k).2 := by
        simp [lookupRemove, hk]
      have h2 : List.filter (fun q => decide (q.1 ≠ k)) (p :: rest) =
          p :: List.filter (fun q => decide (q.1 ≠ k)) rest := by
        simp [List.filter_cons, hk]
      rw [h1, h2, lookupRemove_snd rest k h.2]

/-- Filtering keeps key lists duplicate-free. -/
theorem filter_keys_nodup {α β : Type} (l : List (α × β)) (p : α × β → Bool)
    (h : (l.map (fun x => x.1)).Nodup) :
    ((l.filter p).map (fun x => x.1)).Nodup := by
  have hs : (l.filter p).Sublist l := List.filter_sublist l
  exact h.sublist (hs.map _)

/-- Pointwise filter predicate for composing two removal rounds. -/
theorem decide_not_mem_cons {α : Type} [DecidableEq α] (x k : α) (ids : List α) :
    decide (x ∉ k :: ids) = (decide (x ≠ k) && decide (x ∉ ids)) := by
  by_cases h1 : x = k <;> by_cases h2 : x ∈ ids <;> simp [h1, h2]

/-- Pointwise filter predicate for composing removal rounds over an append. -/
theorem decide_not_mem_append {α : Type} [DecidableEq α] (x : α) (a b : List α) :
    decide (x ∉ a ++ b) = (decide (x ∉ a) && decide (x ∉ b)) := by
  by_cases h1 : x ∈ a <;> by_cases h2 : x ∈ b <;> simp [h1, h2]

/-- Effect of one option step on the metadata: only the remote option map
changes, by removal of the option's id. -/
theorem processOption_md (qid : Uuid) (st : SyncState) (o : QuestionOptionData) :
    (processOption qid st o).md =
      { st.md with question_options_metadata :=
          (lookupRemove st.md.question_options_metadata o.id).2 } := by
  simp only [processOption, QuestionOptionData.set_question_id]
  split <;> rfl

/-- Effect of one option step on the accumulators other than the option
upserts: none. -/
theorem processOption_acc (qid : Uuid) (st : SyncState) (o : QuestionOptionData) :
    (processOption qid st o).courses_to_sync = st.courses_to_sync ∧
    (processOption qid st o).questions_to_sync = st.questions_to_sync ∧
    (processOption qid st o).course_evaluations_to_sync =
      st.course_evaluations_to_sync := by
  simp only [processOption]
  split <;> exact ⟨rfl, rfl, rfl⟩

/-- Effect of the option loop on the metadata: the remote course and question
maps and the evaluation set are untouched, and, when its keys are
duplicate-free, the remote option map loses exactly the walked option ids. -/
theorem foldOptions_md (qid : Uuid) :
    ∀ (os : List QuestionOptionData) (st : SyncState),
      (os.foldl (processOption qid) st).md.courses_metadata = st.md.courses_metadata ∧
      (os.foldl (processOption qid) st).md.questions_metadata = st.md.questions_metadata ∧
      (os.foldl (processOption qid) st).md.course_evaluations = st.md.course_evaluations ∧
      ((st.md.question_options_metadata.map (fun p => p.1)).Nodup →
        (os.foldl (processOption qid) st).md.question_options_metadata =
          st.md.question_options_metadata.filter
            (fun p => decide (p.1 ∉ os.map (fun o => o.id))))
  | [], st => by
    refine ⟨rfl, rfl, rfl, fun _ => ?_⟩
    simp
  | o :: os, st => by
    have hstep := processOption_md qid st o
    have ih := foldOptions_md qid os (processOption qid st o)
    refine ⟨?_, ?_, ?_, fun hnd => ?_⟩
    · rw [List.foldl_cons, ih.1, hstep]
    · rw [List.foldl_cons, ih.2.1, hstep]
    · rw [List.foldl_cons, ih.2.2.1, hstep]
    · have hro : (processOption qid st o).md.question_options_metadata =
          st.md.question_options_metadata.filter (fun p => decide (p.1 ≠ o.id)) := by
        rw [hstep]
        exact lookupRemove_snd _ _ hnd
      have hnd2 : (((processOption qid st o).md.question_options_metadata).map
          (fun p => p.1)).Nodup := by
        rw [hro]; exact filter_keys_nodup _ _ hnd
      rw [List.foldl_cons, ih.2.2.2 hnd2, hro, List.filter_filter]
      refine List.filter_congr ?_
      intro p _
      rw [List.map_cons, decide_not_mem_cons, Bool.and_comm]

/-- The metadata after a question step equals the metadata after folding its
options over the state with the evaluation erased and the question id
removed; the upsert decision does not touch the metadata. -/
theorem processQuestion_md_eq (ckey : Str) (skip : Bool) (st : SyncState)
    (q : QuestionData) :
    (processQuestion ckey skip st q).md =
      (q.question_options.foldl (processOption q.id)
        { st with md :=
          { st.md with
            course_evaluations :=
              st.md.course_evaluations.erase (fullKey ckey q.evaluation),
            questions_metadata :=
              (lookupRemove st.md.questions_metadata q.id).2 } }).md := by
  simp only [processQuestion, QuestionData.set_course_key]
  split <;> rfl

/-- Effect of one question step on the metadata: the remote course map is
untouched, the walked evaluation key is erased, and the remote question and
option maps lose exactly the walked ids (when their keys are
duplicate-free). -/
theorem processQuestion_md (ckey : Str) (skip : Bool) (st : SyncState)
    (q : QuestionData) :
    (processQuestion ckey skip st q).md.courses_metadata = st.md.courses_metadata ∧
    (processQuestion ckey skip st q).md.course_evaluations =
      st.md.course_evaluations.erase (fullKey ckey q.evaluation) ∧
    ((st.md.questions_metadata.map (fun p => p.1)).Nodup →
      (processQuestion ckey skip st q).md.questions_metadata =
        st.md.questions_metadata.filter (fun p => decide (p.1 ≠ q.id))) ∧
    ((st.md.question_options_metadata.map (fun p => p.1)).Nodup →
      (processQuestion ckey skip st q).md.question_options_metadata =
        st.md.question_options_metadata.filter
          (fun p => decide (p.1 ∉ q.question_options.map (fun o => o.id)))) := by
  have heq := processQuestion_md_eq ckey skip st q
  have hfold := foldOptions_md q.id q.question_options
    { st with md :=
      { st.md with
        course_evaluations :=
          st.md.course_evaluations.erase (fullKey ckey q.evaluation),
        questions_metadata :=
          (lookupRemove st.md.questions_metadata q.id).2 } }
  refine ⟨?_, ?_, fun hnd => ?_, fun hnd => ?_⟩
  · rw [heq, hfold.1]
  · rw [heq, hfold.2.2.1]
  · rw [heq, hfold.2.1]
    exact lookupRemove_snd _ _ hnd
  · rw [heq, hfold.2.2.2 hnd]

/-- Effect of the question loop on the metadata: the remote course map is
untouched, and the remote question and option maps lose exactly the walked
ids when their keys are duplicate-free. -/
theorem foldQuestions_md (ckey : Str) (skip : Bool) :
    ∀ (qs : List QuestionData) (st : SyncState),
      ((qs.foldl (processQuestion ckey skip) st).md.courses_metadata =
        st.md.courses_metadata) ∧
      ((st.md.questions_metadata.map (fun p => p.1)).Nodup →
        (qs.foldl (processQuestion ckey skip) st).md.questions_metadata =
          st.md.questions_metadata.filter
            (fun p => decide (p.1 ∉ qs.map (fun q => q.id)))) ∧
      ((st.md.question_options_metadata.map (fun p => p.1)).Nodup →
        (qs.foldl (processQuestion ckey skip) st).md.question_options_metadata =
          st.md.question_options_metadata.filter
            (fun p => decide (p.1 ∉
              (qs.map (fun q => q.question_options.map (fun o => o.id))).flatten)))
  | [], st => by
    refine ⟨rfl, fun _ => ?_, fun _ => ?_⟩ <;> simp
  | q :: qs, st => by
    have hstep := processQuestion_md ckey skip st q
    have ih := foldQuestions_md ckey skip qs (processQuestion ckey skip st q)
    refine ⟨?_, fun hnd => ?_, fun hnd => ?_⟩
    · rw [List.foldl_cons, ih.1, hstep.1]
    · have hq := hstep.2.2.1 hnd
      have hnd2 : (((processQuestion ckey skip st q).md.questions_metadata).map
          (fun p => p.1)).Nodup := by
        rw [hq]; exact filter_keys_nodup _ _ hnd
      rw [List.foldl_cons, ih.2.1 hnd2, hq, List.filter_filter]
      refine List.filter_congr ?_
      intro p _
      rw [List.map_cons, decide_not_mem_cons, Bool.and_comm]
    · have hq := hstep.2.2.2 hnd
      have hnd2 : (((processQuestion ckey skip st q).md.question_options_metadata).map
          (fun p => p.1)).Nodup := by
        rw [hq]; exact filter_keys_nodup _ _ hnd
      rw [List.foldl_cons, ih.2.2 hnd2, hq, List.filter_filter]
      refine List.filter_congr ?_
      intro p _
      rw [List.map_cons, List.flatten_cons, decide_not_mem_append, Bool.and_comm]

/-- The metadata after a course step equals the metadata after folding its
questions over the state with the course key removed. -/
theorem processCourse_md_eq (st : SyncState) (c : CourseData) :
    (processCourse st c).md =
      (c.questions.foldl
        (processQuestion c.key
          (decide ((lookupRemove st.md.courses_metadata c.key).1 = some c.hash)))
        { st with md :=
          { st.md with courses_metadata :=
              (lookupRemove st.md.courses_metadata c.key).2 } }).md := by
  simp only [processCourse]
  split <;> rfl

/-- Effect of one course step on the metadata: each remote map loses exactly
the walked keys and ids (when its keys are duplicate-free). -/
theorem processCourse_md (st : SyncState) (c : CourseData) :
    ((st.md.courses_metadata.map (fun p => p.1)).Nodup →
      (processCourse st c).md.courses_metadata =
        st.md.courses_metadata.filter (fun p => decide (p.1 ≠ c.key))) ∧
    ((st.md.questions_metadata.map (fun p => p.1)).Nodup →
      (processCourse st c).md.questions_metadata =
        st.md.questions_metadata.filter
          (fun p => decide (p.1 ∉ questionIdsOf c))) ∧
    ((st.md.question_options_metadata.map (fun p => p.1)).Nodup →
      (processCourse st c).md.question_options_metadata =
        st.md.question_options_metadata.filter
          (fun p => decide (p.1 ∉ optionIdsOf c))) := by
  have heq := processCourse_md_eq st c
  have hfold := foldQuestions_md c.key
    (decide ((lookupRemove st.md.courses_metadata c.key).1 = some c.hash))
    c.questions
    { st with md :=
      { st.md with courses_metadata :=
          (lookupRemove st.md.courses_metadata c.key).2 } }
  refine ⟨fun hnd => ?_, fun hnd => ?_, fun hnd => ?_⟩
  · rw [heq, hfold.1]
    exact lookupRemove_snd _ _ hnd
  · rw [heq, hfold.2.1 hnd]
    rfl
  · rw [heq, hfold.2.2 hnd]
    rfl

/-- Effect of the course loop on the metadata: each remote map loses exactly
the walked keys and ids (when its keys are duplicate-free). -/
theorem foldCourses_md :
    ∀ (cs : List CourseData) (st : SyncState),
      ((st.md.courses_metadata.map (fun p => p.1)).Nodup →
        (cs.foldl processCourse st).md.courses_metadata =
          st.md.courses_metadata.filter
            (fun p => decide (p.1 ∉ cs.map (fun c => c.key)))) ∧
      ((st.md.questions_metadata.map (fun p => p.1)).Nodup →
        (cs.foldl processCourse st).md.questions_metadata =
          st.md.questions_metadata.filter
            (fun p => decide (p.1 ∉ (cs.map questionIdsOf).flatten))) ∧
      ((st.md.question_options_metadata.map (fun p => p.1)).Nodup →
        (cs.foldl processCourse st).md.question_options_metadata =
          st.md.question_options_metadata.filter
            (fun p => decide (p.1 ∉ (cs.map optionIdsOf).flatten)))
  | [], st => by
    refine ⟨fun _ => ?_, fun _ => ?_, fun _ => ?_⟩ <;> simp
  | c :: cs, st => by
    have hstep := processCourse_md st c
    have ih := foldCourses_md cs (processCourse st c)
    refine ⟨fun hnd => ?_, fun hnd => ?_, fun hnd => ?_⟩
    · have hq := hstep.1 hnd
      have hnd2 : (((processCourse st c).md.courses_metadata).map
          (fun p => p.1)).Nodup := by
        rw [hq]; exact filter_keys_nodup _ _ hnd
      rw [List.foldl_cons, ih.1 hnd2, hq, List.filter_filter]
      refine List.filter_congr ?_
      intro p _
      by_cases h1 : p.1 = c.key <;>
        by_cases h2 : p.1 ∈ cs.map (fun x => x.key) <;>
        simp [h1, h2]
    · have hq := hstep.2.1 hnd
      have hnd2 : (((processCourse st c).md.questions_metadata).map
          (fun p => p.1)).Nodup := by
        rw [hq]; exact filter_keys_nodup _ _ hnd
      rw [List.foldl_cons, ih.2.1 hnd2, hq, List.filter_filter]
      refine List.filter_congr ?_
      intro p _
      by_cases h1 : p.1 ∈ questionIdsOf c <;>
        by_cases h2 : p.1 ∈ (cs.map questionIdsOf).flatten <;>
        simp [h1, h2]
    · have hq := hstep.2.2 hnd
      have hnd2 : (((processCourse st c).md.question_options_metadata).map
          (fun p => p.1)).Nodup := by
        rw [hq]; exact filter_keys_nodup _ _ hnd
      rw [List.foldl_cons, ih.2.2 hnd2, hq, List.filter_filter]
      refine List.filter_congr ?_
      intro p _
      by_cases h1 : p.1 ∈ optionIdsOf c <;>
        by_cases h2 : p.1 ∈ (cs.map optionIdsOf).flatten <;>
        simp [h1, h2]

/-- The option loop never touches the course, question or evaluation upsert
accumulators. -/
theorem foldOptions_acc (qid : Uuid) :
    ∀ (os : List QuestionOptionData) (st : SyncState),
      (os.foldl (processOption qid) st).courses_to_sync = st.courses_to_sync ∧
      (os.foldl (processOption qid) st).questions_to_sync = st.questions_to_sync ∧
      (os.foldl (processOption qid) st).course_evaluations_to_sync =
        st.course_evaluations_to_sync
  | [], _ => ⟨rfl, rfl, rfl⟩
  | o :: os, st => by
    have hstep := processOption_acc qid st o
    have ih := foldOptions_acc qid os (processOption qid st o)
    exact ⟨by rw [List.foldl_cons, ih.1, hstep.1],
      by rw [List.foldl_cons, ih.2.1, hstep.2.1],
      by rw [List.foldl_cons, ih.2.2, hstep.2.2]⟩

/-- A question step never touches the course upsert accumulator. -/
theorem processQuestion_courses_acc (ckey : Str) (skip : Bool) (st : SyncState)
    (q : QuestionData) :
    (processQuestion ckey skip st q).courses_to_sync = st.courses_to_sync := by
  simp only [processQuestion, QuestionData.set_course_key]
  split
  · exact (foldOptions_acc _ _ _).1
  · exact (foldOptions_acc _ _ _).1

/-- Under a skipped course every question is skipped: a question step with the
course skip flag set never adds a question or evaluation upsert. -/
theorem processQuestion_acc_skip (ckey : Str) (st : SyncState) (q : QuestionData) :
    (processQuestion ckey true st q).questions_to_sync = st.questions_to_sync ∧
    (processQuestion ckey true st q).course_evaluations_to_sync =
      st.course_evaluations_to_sync := by
  simp only [processQuestion, QuestionData.set_course_key]
  split
  · exact ⟨(foldOptions_acc _ _ _).2.1, (foldOptions_acc _ _ _).2.2⟩
  · rename_i hfalse
    rw [Bool.not_eq_true] at hfalse
    exfalso
    revert hfalse
    split
    · split <;> simp
    · simp

/-- The question loop under a skipped course leaves the course, question and
evaluation upsert accumulators unchanged. -/
theorem foldQuestions_acc_skip (ckey : Str) :
    ∀ (qs : List QuestionData) (st : SyncState),
      (qs.foldl (processQuestion ckey true) st).questions_to_sync =
        st.questions_to_sync ∧
      (qs.foldl (processQuestion ckey true) st).courses_to_sync =
        st.courses_to_sync ∧
      (qs.foldl (processQuestion ckey true) st).course_evaluations_to_sync =
        st.course_evaluations_to_sync
  | [], _ => ⟨rfl, rfl, rfl⟩
  | q :: qs, st => by
    have hstep := processQuestion_acc_skip ckey st q
    have hc := processQuestion_courses_acc ckey true st q
    have ih := foldQuestions_acc_skip ckey qs (processQuestion ckey true st q)
    exact ⟨by rw [List.foldl_cons, ih.1, hstep.1],
      by rw [List.foldl_cons, ih.2.1, hc],
      by rw [List.foldl_cons, ih.2.2, hstep.2]⟩

/-- A course step on a course whose remote hash matches adds no upserts at
all: the course is skipped and every question under it is skipped. -/
theorem processCourse_acc_skip (st : SyncState) (c : CourseData)
    (hskip : (lookupRemove st.md.courses_metadata c.key).1 = some c.hash) :
    (processCourse st c).questions_to_sync = st.questions_to_sync ∧
    (processCourse st c).courses_to_sync = st.courses_to_sync ∧
    (processCourse st c).course_evaluations_to_sync =
      st.course_evaluations_to_sync := by
  simp only [processCourse]
  rw [decide_eq_true hskip]
  split
  · exact ⟨(foldQuestions_acc_skip _ _ _).1, (foldQuestions_acc_skip _ _ _).2.1,
      (foldQuestions_acc_skip _ _ _).2.2⟩
  · rename_i hfalse
    exact absurd hskip hfalse

/-- The initial loop state of sync (src/src/sync.rs lines 13-18). -/
def initState (md : SyncMetadata) : SyncState :=
  { md := md, courses_to_sync := [], questions_to_sync := [],
    question_options_to_sync := [], course_evaluations_to_sync := [] }

/-- C2 (amended): for every question whose owning course is marked unchanged
(the remote course hash equals the local course hash), the diff SKIPS the
question no matter what its own remote hash says: the question-upsert list
receives no question of that course, even when the question's id is absent
from the remote map or present with a stale hash. The question is still never
a deletion candidate, because its id is removed from the remote question map
during the walk. -/
theorem claim_C2_amended (c : CourseData) (md : SyncMetadata)
    (hskip : (lookupRemove md.courses_metadata c.key).1 = some c.hash)
    (hnd : (md.questions_metadata.map (fun p => p.1)).Nodup) :
    (syncDiff [c] md).questions_to_sync = [] ∧
    ∀ q ∈ c.questions, q.id ∉ (syncDiff [c] md).questions_to_delete := by
  constructor
  · exact (processCourse_acc_skip (initState md) c hskip).1
  · intro q hq hmem
    have hmd := (processCourse_md (initState md) c).2.1 hnd
    rw [show (syncDiff [c] md).questions_to_delete =
        ((processCourse (initState md) c).md.questions_metadata).map (fun p => p.1)
        from rfl, hmd] at hmem
    simp only [List.mem_map, List.mem_filter, decide_eq_true_eq] at hmem
    obtain ⟨p, ⟨_, hnot⟩, heq⟩ := hmem
    exact (heq ▸ hnot) (List.mem_map_of_mem _ hq)

/-- Witness for C2 (amended) at the concrete skipped course of the C2
counterexample, whose remote question hash is stale. -/
theorem claim_C2_amended_witness :
    (lookupRemove metadataC2.courses_metadata courseC1.key).1 = some courseC1.hash ∧
    ((syncDiff [courseC1] metadataC2).questions_to_sync = [] ∧
      ∀ q ∈ courseC1.questions,
        q.id ∉ (syncDiff [courseC1] metadataC2).questions_to_delete) :=
  ⟨by decide, claim_C2_amended courseC1 metadataC2 (by decide) (by decide)⟩

/-- C3: after the single diff walk over every local course, question and
option, the deletion lists are exactly the remote keys that no local entity
matched: a key or id is deleted precisely when the remote snapshot holds it
and no local course, question or option carries it (assuming remote maps
without duplicate keys). In the pure-deletion instance where local has nothing
at all, the changeset deletes every remote course, question and option, and
every remote evaluation key, with no upserts of any kind. -/
theorem claim_C3_deletions (courses : List CourseData) (md : SyncMetadata)
    (h1 : (md.courses_metadata.map (fun p => p.1)).Nodup)
    (h2 : (md.questions_metadata.map (fun p => p.1)).Nodup)
    (h3 : (md.question_options_metadata.map (fun p => p.1)).Nodup) :
    (∀ k, k ∈ (syncDiff courses md).courses_to_delete ↔
      (k ∈ md.courses_metadata.map (fun p => p.1) ∧
        k ∉ courses.map (fun c => c.key))) ∧
    (∀ i, i ∈ (syncDiff courses md).questions_to_delete ↔
      (i ∈ md.questions_metadata.map (fun p => p.1) ∧
        i ∉ (courses.map questionIdsOf).flatten)) ∧
    (∀ i, i ∈ (syncDiff courses md).question_options_to_delete ↔
      (i ∈ md.question_options_metadata.map (fun p => p.1) ∧
        i ∉ (courses.map optionIdsOf).flatten)) ∧
    (courses = [] →
      (syncDiff courses md).course_evaluations_to_delete = md.course_evaluations ∧
      (syncDiff courses md).courses_to_sync = [] ∧
      (syncDiff courses md).questions_to_sync = [] ∧
      (syncDiff courses md).question_options_to_sync = [] ∧
      (syncDiff courses md).course_evaluations_to_sync = []) := by
  have hall := foldCourses_md courses (initState md)
  refine ⟨fun k => ?_, fun i => ?_, fun i => ?_, ?_⟩
  · rw [show (syncDiff courses md).courses_to_delete =
        ((courses.foldl processCourse (initState md)).md.courses_metadata).map
          (fun p => p.1) from rfl, hall.1 h1]
    simp only [List.mem_map, List.mem_filter, decide_eq_true_eq]
    constructor
    · rintro ⟨p, ⟨hp, hnot⟩, rfl⟩
      exact ⟨⟨p, hp, rfl⟩, hnot⟩
    · rintro ⟨⟨p, hp, rfl⟩, hnot⟩
      exact ⟨p, ⟨hp, hnot⟩, rfl⟩
  · rw [show (syncDiff courses md).questions_to_delete =
        ((courses.foldl processCourse (initState md)).md.questions_metadata).map
          (fun p => p.1) from rfl, hall.2.1 h2]
    simp only [List.mem_map, List.mem_filter, decide_eq_true_eq]
    constructor
    · rintro ⟨p, ⟨hp, hnot⟩, rfl⟩
      exact ⟨⟨p, hp, rfl⟩, hnot⟩
    · rintro ⟨⟨p, hp, rfl⟩, hnot⟩
      exact ⟨p, ⟨hp, hnot⟩, rfl⟩
  · rw [show (syncDiff courses md).question_options_to_delete =
        ((courses.foldl processCourse (initState md)).md.question_options_metadata).map
          (fun p => p.1) from rfl, hall.2.2 h3]
    simp only [List.mem_map, List.mem_filter, decide_eq_true_eq]
    constructor
    · rintro ⟨p, ⟨hp, hnot⟩, rfl⟩
      exact ⟨⟨p, hp, rfl⟩, hnot⟩
    · rintro ⟨⟨p, hp, rfl⟩, hnot⟩
      exact ⟨p, ⟨hp, hnot⟩, rfl⟩
  · rintro rfl
    refine ⟨?_, rfl, rfl, rfl, rfl⟩
    rw [show (syncDiff [] md).course_evaluations_to_delete =
        md.course_evaluations.filter
          (fun k => decide (k ∉ ([] : List SyncCourseEvaluationData).map
            (fun e => e.key))) from rfl]
    exact List.filter_eq_self.mpr (fun a _ => by simp)

/-- Concrete remote snapshot for the pure-deletion instance of C3: a course
c2 with question q2 and option o2 and an evaluation under c2, none of which
local produces. -/
def metadataC3 : SyncMetadata :=
  { courses_metadata := [(strOf "c2", [3])],
    questions_metadata := [(4, [5])],
    question_options_metadata := [(6, [7])],
    course_evaluations := [strOf "c2/final"] }

/-- Witness for C3 at the concrete pure-deletion snapshot with no local
courses. -/
theorem claim_C3_deletions_witness :
    (metadataC3.courses_metadata.map (fun p => p.1)).Nodup ∧
    ((∀ k, k ∈ (syncDiff [] metadataC3).courses_to_delete ↔
      (k ∈ metadataC3.courses_metadata.map (fun p => p.1) ∧
        k ∉ ([] : List CourseData).map (fun c => c.key))) ∧
    (∀ i, i ∈ (syncDiff [] metadataC3).questions_to_delete ↔
      (i ∈ metadataC3.questions_metadata.map (fun p => p.1) ∧
        i ∉ (([] : List CourseData).map questionIdsOf).flatten)) ∧
    (∀ i, i ∈ (syncDiff [] metadataC3).question_options_to_delete ↔
      (i ∈ metadataC3.question_options_metadata.map (fun p => p.1) ∧
        i ∉ (([] : List CourseData).map optionIdsOf).flatten)) ∧
    (([] : List CourseData) = [] →
      (syncDiff [] metadataC3).course_evaluations_to_delete =
        metadataC3.course_evaluations ∧
      (syncDiff [] metadataC3).courses_to_sync = [] ∧
      (syncDiff [] metadataC3).questions_to_sync = [] ∧
      (syncDiff [] metadataC3).question_options_to_sync = [] ∧
      (syncDiff [] metadataC3).course_evaluations_to_sync = [])) :=
  ⟨by decide, claim_C3_deletions [] metadataC3 (by decide) (by decide) (by decide)⟩

/-- Stable insertion permutes: inserting x yields a permutation of consing. -/
theorem insSorted_perm {α : Type} (cmp : α → α → Ordering) (x : α) :
    ∀ l : List α, (insSorted cmp x l).Perm (x :: l)
  | [] => List.Perm.refl _
  | y :: ys => by
    simp only [insSorted]
    split
    · exact ((insSorted_perm cmp x ys).cons y).trans (List.Perm.swap x y ys)
    · exact List.Perm.refl _

/-- The stable sort is a permutation of its input. -/
theorem sortBy_perm {α : Type} (cmp : α → α → Ordering) :
    ∀ l : List α, (sortBy cmp l).Perm l
  | [] => List.Perm.refl _
  | x :: xs =>
    (insSorted_perm cmp x (sortBy cmp xs)).trans ((sortBy_perm cmp xs).cons x)

/-- C4 (amended): the trim mutation happens AFTER hashing, not before.
Canonicalizing never changes the stored course hash, and every question
surviving canonicalization carries the hash computed from the raw, untrimmed
input together with the trimmed text (likewise for its options). Hence
trimmed and untrimmed inputs do not hash identically in the run that loads
them (see the counterexample); they only yield equal canonical texts. -/
theorem claim_C4_amended (c : CourseData) :
    c.canonicalize.hash = c.hash ∧
    ∀ q ∈ c.canonicalize.questions,
      ∃ q0 ∈ c.questions,
        q.hash = q0.hash ∧ q.text = strTrim q0.text ∧
        ∀ o ∈ q.question_options,
          ∃ o0 ∈ q0.question_options, o.hash = o0.hash ∧ o.text = strTrim o0.text := by
  refine ⟨rfl, ?_⟩
  intro q hq
  simp only [CourseData.canonicalize, CourseData.format_text, CourseData.sort,
    CourseData.deduplicate, List.mem_map] at hq
  obtain ⟨q1, hq1, rfl⟩ := hq
  obtain ⟨qs1, hqs1, rfl⟩ := hq1
  have hq1mem : qs1 ∈ (dedupBy QuestionData.eq_data c.questions).map
      QuestionData.deduplicate_options :=
    ((sortBy_perm questionCmp _).mem_iff).mp hqs1
  simp only [List.mem_map] at hq1mem
  obtain ⟨q2, hq2, rfl⟩ := hq1mem
  have hq2mem : q2 ∈ c.questions := (dedupBy_sublist _ _).mem hq2
  refine ⟨q2, hq2mem, rfl, rfl, ?_⟩
  intro o ho
  simp only [QuestionData.format_text, QuestionData.sort_options,
    QuestionData.deduplicate_options, List.mem_map] at ho
  obtain ⟨o1, ho1, rfl⟩ := ho
  have ho1mem : o1 ∈ dedupBy QuestionOptionData.eq_data q2.question_options :=
    ((sortBy_perm optionCmp _).mem_iff).mp ho1
  exact ⟨o1, (dedupBy_sublist _ _).mem ho1mem, rfl, rfl⟩

/-- cmpNat decides the strict order. -/
theorem cmpNat_lt {a b : Nat} : cmpNat a b = .lt ↔ a < b := by
  unfold cmpNat
  split_ifs with h1 h2 <;> simp <;> omega

/-- cmpNat decides equality. -/
theorem cmpNat_eq {a b : Nat} : cmpNat a b = .eq ↔ a = b := by
  unfold cmpNat
  split_ifs with h1 h2 <;> simp <;> omega

/-- cmpNat answers gt exactly when the swapped comparison answers lt. -/
theorem cmpNat_swap (a b : Nat) : cmpNat a b = (cmpNat b a).swap := by
  unfold cmpNat
  split_ifs with h1 h2 h3 h4 <;> simp [Ordering.swap] <;> omega

/-- Byte comparison answers eq exactly on equal strings. -/
theorem cmpStr_eq : ∀ {a b : Str}, cmpStr a b = .eq ↔ a = b
  | [], [] => by simp [cmpStr]
  | [], _ :: _ => by simp [cmpStr]
  | _ :: _, [] => by simp [cmpStr]
  | x :: xs, y :: ys => by
    simp only [cmpStr]
    rcases h : cmpNat x y with _ | _ | _
    · simp [cmpNat_lt.mp h, Nat.ne_of_lt (cmpNat_lt.mp h)]
    · have hxy := cmpNat_eq.mp h
      subst hxy
      simp [cmpStr_eq]
    · have hyx : y < x := by
        have := cmpNat_swap x y
        rw [h] at this
        rcases h2 : cmpNat y x with _ | _ | _ <;> rw [h2] at this <;>
          simp [Ordering.swap] at this
        exact cmpNat_lt.mp h2
      simp [Nat.ne_of_gt hyx]

/-- Byte comparison of swapped arguments swaps the answer. -/
theorem cmpStr_swap : ∀ (a b : Str), cmpStr a b = (cmpStr b a).swap
  | [], [] => rfl
  | [], _ :: _ => rfl
  | _ :: _, [] => rfl
  | x :: xs, y :: ys => by
    simp only [cmpStr]
    rw [cmpNat_swap x y]
    rcases h : cmpNat y x with _ | _ | _ <;>
      simp [Ordering.swap, cmpStr_swap xs ys]

/-- Byte comparison is transitive in its strict part. -/
theorem cmpStr_lt_trans : ∀ (a b d : Str),
    cmpStr a b = .lt → cmpStr b d = .lt → cmpStr a d = .lt
  | [], [], _, h1, _ => by simp [cmpStr] at h1
  | [], _ :: _, [], _, h2 => by simp [cmpStr] at h2
  | [], _ :: _, _ :: _, _, _ => by simp [cmpStr]
  | _ :: _, [], _, h1, _ => by simp [cmpStr] at h1
  | _ :: _, _ :: _, [], _, h2 => by simp [cmpStr] at h2
  | x :: xs, y :: ys, z :: zs, h1, h2 => by
    simp only [cmpStr] at h1 h2 ⊢
    rcases hxy : cmpNat x y with _ | _ | _
    · rcases hyz : cmpNat y z with _ | _ | _
      · have hxz : cmpNat x z = .lt :=
          cmpNat_lt.mpr (Nat.lt_trans (cmpNat_lt.mp hxy) (cmpNat_lt.mp hyz))
        simp [hxz]
      · have hxz : cmpNat x z = .lt := by
          rw [← cmpNat_eq.mp hyz]
          exact hxy
        simp [hxz]
      · simp [hyz] at h2
    · have hxy2 := cmpNat_eq.mp hxy
      subst hxy2
      simp only [hxy] at h1
      rcases hyz : cmpNat x z with _ | _ | _
      · simp [hyz]
      · simp only [hyz] at h2
        simp [hyz, cmpStr_lt_trans xs ys zs h1 h2]
      · simp [hyz] at h2
    · simp [hxy] at h1

/-- Option comparison answers eq exactly on equal values, given the inner
comparator does. -/
theorem cmpOpt_eq {α : Type} {c : α → α → Ordering}
    (hc : ∀ a b : α, c a b = .eq ↔ a = b) :
    ∀ x y : Option α, cmpOpt c x y = .eq ↔ x = y
  | none, none => by simp [cmpOpt]
  | none, some _ => by simp [cmpOpt]
  | some _, none => by simp [cmpOpt]
  | some a, some b => by simp [cmpOpt, hc a b]

/-- Option comparison of swapped arguments swaps the answer. -/
theorem cmpOpt_swap {α : Type} {c : α → α → Ordering}
    (hc : ∀ a b : α, c a b = (c b a).swap) :
    ∀ x y : Option α, cmpOpt c x y = (cmpOpt c y x).swap
  | none, none => rfl
  | none, some _ => rfl
  | some _, none => rfl
  | some a, some b => hc a b

/-- Option comparison is transitive in its strict part. -/
theorem cmpOpt_lt_trans {α : Type} {c : α → α → Ordering}
    (hc : ∀ a b d : α, c a b = .lt → c b d = .lt → c a d = .lt) :
    ∀ x y z : Option α, cmpOpt c x y = .lt → cmpOpt c y z = .lt →
      cmpOpt c x z = .lt
  | none, none, _, h1, _ => by simp [cmpOpt] at h1
  | none, some _, none, _, h2 => by simp [cmpOpt] at h2
  | none, some _, some _, _, _ => by simp [cmpOpt]
  | some _, none, _, h1, _ => by simp [cmpOpt] at h1
  | some _, some _, none, _, h2 => by simp [cmpOpt] at h2
  | some a, some b, some d, h1, h2 => hc a b d h1 h2

/-- Lexicographic composition of two comparators on the same type, the
shape of the nested matches of CourseData::sort. -/
def lexCmp {α : Type} (f g : α → α → Ordering) (a b : α) : Ordering :=
  match f a b with
  | .eq => g a b
  | o => o

/-- A comparator swaps its answer when its arguments swap. -/
def cmpSwap {α : Type} (c : α → α → Ordering) : Prop :=
  ∀ a b, c a b = (c b a).swap

/-- A comparator is transitive in its strict part. -/
def cmpLtTrans {α : Type} (c : α → α → Ordering) : Prop :=
  ∀ a b d, c a b = .lt → c b d = .lt → c a d = .lt

/-- Comparator-equal left arguments compare equally against anything. -/
def cmpEqSubst {α : Type} (c : α → α → Ordering) : Prop :=
  ∀ a b d, c a b = .eq → c a d = c b d

/-- The lexicographic composition answers eq exactly when both parts do. -/
theorem lexCmp_eq_split {α : Type} {f g : α → α → Ordering} {a b : α} :
    lexCmp f g a b = .eq ↔ (f a b = .eq ∧ g a b = .eq) := by
  unfold lexCmp
  rcases h : f a b with _ | _ | _ <;> simp

/-- Swapping lifts through lexicographic composition. -/
theorem lexCmp_swap {α : Type} {f g : α → α → Ordering}
    (hf : cmpSwap f) (hg : cmpSwap g) : cmpSwap (lexCmp f g) := by
  intro a b
  unfold lexCmp
  have h2 := hf a b
  rcases h3 : f b a with _ | _ | _ <;> rw [h3] at h2 <;>
    simp only [Ordering.swap] at h2 <;> simp only [h2, h3]
  · rfl
  · exact hg a b
  · rfl

/-- Strict transitivity lifts through lexicographic composition. -/
theorem lexCmp_lt_trans {α : Type} {f g : α → α → Ordering}
    (hfs : cmpSwap f) (hft : cmpLtTrans f) (hfe : cmpEqSubst f)
    (hgt : cmpLtTrans g) : cmpLtTrans (lexCmp f g) := by
  intro a b d h1 h2
  unfold lexCmp at h1 h2 ⊢
  rcases hab : f a b with _ | _ | _
  · rcases hbd : f b d with _ | _ | _
    · simp [hft a b d hab hbd]
    · have hsub := hfe b d a hbd
      have had : f a d = .lt := by
        have hswap := hfs a d
        rw [← hsub, ← hfs a b] at hswap
        rw [hswap, hab]
      simp [had]
    · simp only [hbd] at h2
      exact absurd h2 (by simp)
  · have had := hfe a b d hab
    simp only [hab] at h1
    rcases hbd : f b d with _ | _ | _
    · simp [had, hbd]
    · rw [hbd] at had
      simp only [hbd] at h2
      simp [had, hgt a b d h1 h2]
    · simp only [hbd] at h2
      exact absurd h2 (by simp)
  · simp only [hab] at h1
    exact absurd h1 (by simp)

/-- Equal-substitution lifts through lexicographic composition. -/
theorem lexCmp_eq_subst {α : Type} {f g : α → α → Ordering}
    (hfe : cmpEqSubst f) (hge : cmpEqSubst g) : cmpEqSubst (lexCmp f g) := by
  intro a b d h
  obtain ⟨h1, h2⟩ := lexCmp_eq_split.mp h
  unfold lexCmp
  rw [hfe a b d h1, hge a b d h2]

/-- The evaluation component of the question comparator. -/
def evalCmp (a b : QuestionData) : Ordering := cmpStr a.evaluation b.evaluation

/-- The asked_at component of the question comparator. -/
def dateCmp (a b : QuestionData) : Ordering := cmpOpt cmpNat a.asked_at b.asked_at

/-- The text component of the question comparator. -/
def textCmp (a b : QuestionData) : Ordering := cmpStr a.text b.text

/-- The id tie-break component of the question comparator. -/
def idCmp (a b : QuestionData) : Ordering := cmpNat a.id b.id

/-- The question comparator is the lexicographic composition of its four
components. -/
theorem questionCmp_lex (a b : QuestionData) :
    questionCmp a b = lexCmp evalCmp (lexCmp dateCmp (lexCmp textCmp idCmp)) a b := rfl

/-- cmpNat is transitive in its strict part. -/
theorem cmpNat_lt_trans : cmpLtTrans cmpNat := fun a b d h1 h2 =>
  cmpNat_lt.mpr (Nat.lt_trans (cmpNat_lt.mp h1) (cmpNat_lt.mp h2))

/-- Swap law for the evaluation component. -/
theorem evalCmp_swap : cmpSwap evalCmp := fun a b => cmpStr_swap _ _

/-- Strict transitivity for the evaluation component. -/
theorem evalCmp_lt_trans : cmpLtTrans evalCmp :=
  fun _ _ _ h1 h2 => cmpStr_lt_trans _ _ _ h1 h2

/-- Swap law for the asked_at component. -/
theorem dateCmp_swap : cmpSwap dateCmp := fun _ _ => cmpOpt_swap cmpNat_swap _ _

/-- Strict transitivity for the asked_at component. -/
theorem dateCmp_lt_trans : cmpLtTrans dateCmp :=
  fun _ _ _ h1 h2 => cmpOpt_lt_trans cmpNat_lt_trans _ _ _ h1 h2

/-- Swap law for the text component. -/
theorem textCmp_swap : cmpSwap textCmp := fun a b => cmpStr_swap _ _

/-- Strict transitivity for the text component. -/
theorem textCmp_lt_trans : cmpLtTrans textCmp :=
  fun _ _ _ h1 h2 => cmpStr_lt_trans _ _ _ h1 h2

/-- Swap law for the id component. -/
theorem idCmp_swap : cmpSwap idCmp := fun a b => cmpNat_swap _ _

/-- Strict transitivity for the id component. -/
theorem idCmp_lt_trans : cmpLtTrans idCmp :=
  fun _ _ _ h1 h2 => cmpNat_lt_trans _ _ _ h1 h2

/-- The question comparator swaps its answer when its arguments swap. -/
theorem questionCmp_swap : cmpSwap questionCmp := by
  intro a b
  rw [questionCmp_lex, questionCmp_lex]
  exact lexCmp_swap evalCmp_swap
    (lexCmp_swap dateCmp_swap (lexCmp_swap textCmp_swap idCmp_swap)) a b

/-- Equal-substitution for the evaluation component. -/
theorem evalCmp_eq_subst : cmpEqSubst evalCmp := by
  intro a b d h
  unfold evalCmp at h ⊢
  rw [cmpStr_eq.mp h]

/-- Equal-substitution for the asked_at component. -/
theorem dateCmp_eq_subst : cmpEqSubst dateCmp := by
  intro a b d h
  unfold dateCmp at h ⊢
  rw [(cmpOpt_eq (fun a b => cmpNat_eq) _ _).mp h]

/-- Equal-substitution for the text component. -/
theorem textCmp_eq_subst : cmpEqSubst textCmp := by
  intro a b d h
  unfold textCmp at h ⊢
  rw [cmpStr_eq.mp h]

/-- Equal-substitution for the id component. -/
theorem idCmp_eq_subst : cmpEqSubst idCmp := by
  intro a b d h
  unfold idCmp at h ⊢
  rw [cmpNat_eq.mp h]

/-- The question comparator is transitive in its strict part. -/
theorem questionCmp_lt_trans : cmpLtTrans questionCmp := by
  intro a b d h1 h2
  rw [questionCmp_lex] at h1 h2 ⊢
  exact lexCmp_lt_trans evalCmp_swap evalCmp_lt_trans evalCmp_eq_subst
    (lexCmp_lt_trans dateCmp_swap dateCmp_lt_trans dateCmp_eq_subst
      (lexCmp_lt_trans textCmp_swap textCmp_lt_trans textCmp_eq_subst
        idCmp_lt_trans))
    a b d h1 h2

/-- Equal-substitution for the question comparator. -/
theorem questionCmp_eq_subst : cmpEqSubst questionCmp := by
  intro a b d h
  rw [questionCmp_lex] at h ⊢
  rw [questionCmp_lex]
  refine lexCmp_eq_subst evalCmp_eq_subst
    (lexCmp_eq_subst dateCmp_eq_subst
      (lexCmp_eq_subst textCmp_eq_subst idCmp_eq_subst)) a b d h

/-- Questions the comparator calls equal carry the same id. -/
theorem questionCmp_eq_id {a b : QuestionData} (h : questionCmp a b = .eq) :
    a.id = b.id := by
  rw [questionCmp_lex] at h
  have h4 := (lexCmp_eq_split.mp
    (lexCmp_eq_split.mp (lexCmp_eq_split.mp h).2).2).2
  exact cmpNat_eq.mp h4

/-- A comparator with swapped answers never answers gt both ways. -/
theorem notGt_total {α : Type} {c : α → α → Ordering} (hs : cmpSwap c) :
    ∀ a b, c a b = .gt → ¬ c b a = .gt := by
  intro a b h hba
  have h2 := hs a b
  rw [h, hba] at h2
  simp [Ordering.swap] at h2

/-- The non-gt relation of a lawful comparator is transitive. -/
theorem notGt_trans {α : Type} {c : α → α → Ordering} (hs : cmpSwap c)
    (ht : cmpLtTrans c) (he : cmpEqSubst c) :
    ∀ a b d, ¬ c a b = .gt → ¬ c b d = .gt → ¬ c a d = .gt := by
  intro a b d h1 h2
  rcases hab : c a b with _ | _ | _
  · rcases hbd : c b d with _ | _ | _
    · simp [ht a b d hab hbd]
    · have hsub := he b d a hbd
      have had : c a d = c a b := by
        have hswap := hs a d
        rw [← hsub, ← hs a b] at hswap
        exact hswap
      simp [had, hab]
    · exact absurd hbd h2
  · rw [he a b d hab]
    exact h2
  · exact absurd hab h1

/-- Two comparator-antisymmetric sorted permutations of each other are
equal. -/
theorem sorted_perm_eq {α : Type} (le : α → α → Prop) :
    ∀ (l1 l2 : List α), l1.Perm l2 → l1.Pairwise le → l2.Pairwise le →
      (∀ a ∈ l1, ∀ b ∈ l1, le a b → le b a → a = b) → l1 = l2
  | [], l2, hp, _, _, _ => (hp.symm.eq_nil).symm
  | a :: t1, l2, hp, h1, h2, han => by
    cases l2 with
    | nil => exact absurd hp.eq_nil (by simp)
    | cons b t2 =>
      by_cases hab : a = b
      · subst hab
        have hp2 : t1.Perm t2 := hp.cons_inv
        have hrec : t1 = t2 :=
          sorted_perm_eq le t1 t2 hp2 ((List.pairwise_cons.mp h1).2)
            ((List.pairwise_cons.mp h2).2)
            (fun x hx y hy => han x (by simp [hx]) y (by simp [hy]))
        rw [hrec]
      · exfalso
        have hmem : a ∈ b :: t2 := hp.mem_iff.mp (by simp)
        have hat2 : a ∈ t2 := by
          rcases List.mem_cons.mp hmem with h | h
          · exact absurd h hab
          · exact h
        have hbt1 : b ∈ t1 := by
          have hb : b ∈ a :: t1 := hp.mem_iff.mpr (by simp)
          rcases List.mem_cons.mp hb with h | h
          · exact absurd h.symm hab
          · exact h
        have h1ab : le a b := (List.pairwise_cons.mp h1).1 b hbt1
        have h2ba : le b a := (List.pairwise_cons.mp h2).1 a hat2
        exact hab (han a (by simp) b (by simp [hbt1]) h1ab h2ba)

/-- Stable insertion preserves sortedness for a total, transitive
comparator. -/
theorem insSorted_pairwise {α : Type} (cmp : α → α → Ordering)
    (htot : ∀ a b, cmp a b = .gt → ¬ cmp b a = .gt)
    (htr : ∀ a b d, ¬ cmp a b = .gt → ¬ cmp b d = .gt → ¬ cmp a d = .gt)
    (x : α) :
    ∀ l : List α, l.Pairwise (fun a b => ¬ cmp a b = .gt) →
      (insSorted cmp x l).Pairwise (fun a b => ¬ cmp a b = .gt)
  | [], _ => by simp [insSorted]
  | y :: ys, hl => by
    rw [List.pairwise_cons] at hl
    rcases hxy : cmp x y with _ | _ | _
    · simp only [insSorted, hxy]
      rw [List.pairwise_cons]
      refine ⟨?_, List.pairwise_cons.mpr hl⟩
      intro z hz
      rcases List.mem_cons.mp hz with rfl | hz2
      · simp [hxy]
      · exact htr x y z (by simp [hxy]) (hl.1 z hz2)
    · simp only [insSorted, hxy]
      rw [List.pairwise_cons]
      refine ⟨?_, List.pairwise_cons.mpr hl⟩
      intro z hz
      rcases List.mem_cons.mp hz with rfl | hz2
      · simp [hxy]
      · exact htr x y z (by simp [hxy]) (hl.1 z hz2)
    · simp only [insSorted, hxy]
      rw [List.pairwise_cons]
      constructor
      · intro z hz
        rw [(insSorted_perm cmp x ys).mem_iff] at hz
        rcases List.mem_cons.mp hz with rfl | hz2
        · exact htot _ _ hxy
        · exact hl.1 z hz2
      · exact insSorted_pairwise cmp htot htr x ys hl.2

/-- The stable sort output is sorted for a total, transitive comparator. -/
theorem sortBy_pairwise {α : Type} (cmp : α → α → Ordering)
    (htot : ∀ a b, cmp a b = .gt → ¬ cmp b a = .gt)
    (htr : ∀ a b d, ¬ cmp a b = .gt → ¬ cmp b d = .gt → ¬ cmp a d = .gt) :
    ∀ l : List α, (sortBy cmp l).Pairwise (fun a b => ¬ cmp a b = .gt)
  | [] => by simp [sortBy]
  | x :: xs =>
    insSorted_pairwise cmp htot htr x _ (sortBy_pairwise cmp htot htr xs)

/-- Stable insertion commutes with mapping a comparator-preserving
function. -/
theorem insSorted_map {α : Type} (cmp : α → α → Ordering) (g : α → α)
    (hg : ∀ a b, cmp (g a) (g b) = cmp a b) (x : α) :
    ∀ l : List α, (insSorted cmp x l).map g = insSorted cmp (g x) (l.map g)
  | [] => rfl
  | y :: ys => by
    rcases h : cmp x y with _ | _ | _ <;>
      simp [insSorted, hg x y, h, insSorted_map cmp g hg x ys]

/-- The stable sort commutes with mapping a comparator-preserving
function. -/
theorem sortBy_map {α : Type} (cmp : α → α → Ordering) (g : α → α)
    (hg : ∀ a b, cmp (g a) (g b) = cmp a b) :
    ∀ l : List α, (sortBy cmp l).map g = sortBy cmp (l.map g)
  | [] => rfl
  | x :: xs => by
    simp only [sortBy, List.map_cons]
    rw [insSorted_map cmp g hg x, sortBy_map cmp g hg xs]

/-- Equal-substitution for byte comparison. -/
theorem cmpStr_eq_subst : cmpEqSubst cmpStr := by
  intro a b d h
  rw [cmpStr_eq.mp h]

/-- The option comparator never answers gt both ways. -/
theorem optionCmp_total :
    ∀ a b : QuestionOptionData, optionCmp a b = .gt → ¬ optionCmp b a = .gt := by
  intro a b h hba
  by_cases ha : a.correct <;> by_cases hb : b.correct <;>
    simp [optionCmp, ha, hb] at h hba
  rw [cmpStr_swap b.text a.text, h] at hba
  exact absurd hba (by decide)

/-- The non-gt relation of the option comparator is transitive. -/
theorem optionCmp_le_trans :
    ∀ a b d : QuestionOptionData, ¬ optionCmp a b = .gt → ¬ optionCmp b d = .gt →
      ¬ optionCmp a d = .gt := by
  intro a b d h1 h2
  by_cases ha : a.correct
  · simp [optionCmp, ha]
  · by_cases hb : b.correct
    · simp [optionCmp, ha, hb] at h1
    · by_cases hd : d.correct
      · simp [optionCmp, hb, hd] at h2
      · simp [optionCmp, ha, hb] at h1
        simp [optionCmp, hb, hd] at h2
        simp only [optionCmp, ha, hd, Bool.false_eq_true, if_false]
        exact notGt_trans (fun x y => cmpStr_swap x y)
          (fun x y z hx hy => cmpStr_lt_trans x y z hx hy) cmpStr_eq_subst
          a.text b.text d.text h1 h2

/-- At most one of the options is correct: any two correct members are the
same option. -/
def atMostOneCorrect (os : List QuestionOptionData) : Prop :=
  ∀ a ∈ os, ∀ b ∈ os, a.correct = true → b.correct = true → a = b

/-- Incorrect options are distinguished by their texts. -/
def incorrectTextInjective (os : List QuestionOptionData) : Prop :=
  ∀ a ∈ os, ∀ b ∈ os, a.correct = false → b.correct = false →
    a.text = b.text → a = b

/-- On a question with at most one correct option and text-distinguished
incorrect options, the option comparator is antisymmetric. -/
theorem optionCmp_antisym (os : List QuestionOptionData)
    (hone : atMostOneCorrect os) (hinj : incorrectTextInjective os) :
    ∀ a ∈ os, ∀ b ∈ os, ¬ optionCmp a b = .gt → ¬ optionCmp b a = .gt → a = b := by
  intro a ha b hb hab hba
  by_cases hca : a.correct
  · by_cases hcb : b.correct
    · exact hone a ha b hb hca hcb
    · simp [optionCmp, hca, hcb] at hba
  · by_cases hcb : b.correct
    · simp [optionCmp, hca, hcb] at hab
    · simp [optionCmp, hca, hcb] at hab hba
      have heq : cmpStr a.text b.text = .eq := by
        rcases h : cmpStr a.text b.text with _ | _ | _
        · exfalso
          apply hba
          rw [cmpStr_swap b.text a.text, h]
          rfl
        · rfl
        · exact absurd h hab
      exact hinj a ha b hb (by simp [hca]) (by simp [hcb]) (cmpStr_eq.mp heq)

/-- A question with its stored hash cleared and its options in canonical
order: the part of a canonicalized question that does not depend on the raw
input order. -/
def normQuestion (q : QuestionData) : QuestionData :=
  { q with hash := [], question_options := sortBy optionCmp q.question_options }

/-- A question with its texts trimmed, as format_text leaves them. -/
def trimQuestion (q : QuestionData) : QuestionData :=
  { q with text := strTrim q.text,
           question_options :=
             q.question_options.map (fun o => { o with text := strTrim o.text }) }

/-- A question with only its stored hash cleared. -/
def stripQuestionHash (q : QuestionData) : QuestionData := { q with hash := [] }

/-- A course with the course-level and question-level stored hashes cleared;
option-level hashes are kept. -/
def stripCourseHashes (c : CourseData) : CourseData :=
  { c with hash := [], questions := c.questions.map stripQuestionHash }

/-- Raw questions that differ only in the order of their options. -/
def RawQuestionData.reorder (qa qb : RawQuestionData) : Prop :=
  qa.id = qb.id ∧ qa.text = qb.text ∧ qa.evaluation = qb.evaluation ∧
  qa.image = qb.image ∧ qa.source = qb.source ∧ qa.asked_at = qb.asked_at ∧
  qa.options.Perm qb.options

/-- Raw courses that differ only in the order of questions and in the order
of options within questions. -/
def RawCourseData.reorder (ra rb : RawCourseData) : Prop :=
  ra.name = rb.name ∧ ra.short_name = rb.short_name ∧ ra.aliases = rb.aliases ∧
  ra.year = rb.year ∧ ra.evaluations = rb.evaluations ∧
  ∃ l, ra.questions.Perm l ∧ List.Forall₂ RawQuestionData.reorder l rb.questions

/-- The duplicate-freedom and sort-determinism side conditions on a loaded
course under which canonical order is unique: no two questions are
content-duplicates, question ids are distinct, and each question has at most
one correct option and text-distinguished incorrect options with no duplicate
options. -/
def canonReady (c : CourseData) : Prop :=
  c.questions.Pairwise (fun a b => QuestionData.eq_data b a = false) ∧
  (c.questions.map (fun q => q.id)).Nodup ∧
  ∀ q ∈ c.questions,
    atMostOneCorrect q.question_options ∧
    incorrectTextInjective q.question_options ∧
    q.question_options.Pairwise (fun a b => QuestionOptionData.eq_data b a = false)

/-- Mapping a function that identifies related elements over the two sides of
a Forall₂ yields equal lists. -/
theorem forall2_map_eq {α β : Type} {R : α → α → Prop} (f : α → β) :
    ∀ {l1 l2 : List α}, List.Forall₂ R l1 l2 →
      (∀ a b, a ∈ l1 → R a b → f a = f b) → l1.map f = l2.map f := by
  intro l1 l2 h
  induction h with
  | nil => intro _; rfl
  | cons hr _ ih =>
    intro hf
    simp only [List.map_cons]
    rw [hf _ _ (by simp) hr, ih (fun a b ha hr2 => hf a b (by simp [ha]) hr2)]

/-- Two raw questions that differ only in option order produce the same
hash-cleared, option-sorted question, provided the options admit a unique
sorted order. -/
theorem normQuestion_ofRaw_eq (qa qb : RawQuestionData)
    (hre : RawQuestionData.reorder qa qb)
    (hone : atMostOneCorrect ((QuestionData.ofRaw qa).question_options))
    (hinj : incorrectTextInjective ((QuestionData.ofRaw qa).question_options)) :
    normQuestion (QuestionData.ofRaw qa) = normQuestion (QuestionData.ofRaw qb) := by
  obtain ⟨hid, htext, heval, himg, hsrc, hdate, hperm⟩ := hre
  have hopts : sortBy optionCmp (qa.options.map QuestionOptionData.ofRaw) =
      sortBy optionCmp (qb.options.map QuestionOptionData.ofRaw) := by
    refine sorted_perm_eq (fun a b => ¬ optionCmp a b = .gt) _ _ ?_ ?_ ?_ ?_
    · exact (sortBy_perm _ _).trans ((hperm.map _).trans (sortBy_perm _ _).symm)
    · exact sortBy_pairwise _ optionCmp_total optionCmp_le_trans _
    · exact sortBy_pairwise _ optionCmp_total optionCmp_le_trans _
    · intro a ha b hb hab hba
      exact optionCmp_antisym _ hone hinj a
        ((sortBy_perm optionCmp _).mem_iff.mp ha)
        b ((sortBy_perm optionCmp _).mem_iff.mp hb) hab hba
  simp only [normQuestion, QuestionData.ofRaw, QuestionData.new]
  rw [hid, htext, heval, himg, hsrc, hdate, hopts]

/-- Canonicalizing a duplicate-free course sorts, trims and keeps the stored
hashes; clearing the question and course hashes leaves the sorted trimmed
questions over the hash-cleared, option-sorted forms. -/
theorem canon_strip (c : CourseData) (hdedup : c.deduplicate = c) :
    stripCourseHashes c.canonicalize =
      { c with hash := ([] : Digest),
               questions := (sortBy questionCmp c.questions).map
                 (fun q => trimQuestion (normQuestion q)) } := by
  unfold CourseData.canonicalize
  rw [hdedup]
  simp only [CourseData.sort, CourseData.format_text, stripCourseHashes,
    QuestionData.sort_options, QuestionData.format_text, trimQuestion,
    normQuestion, stripQuestionHash, List.map_map]
  rfl

/-- C5 (amended): hashes are computed at load time, over the raw input order,
so reordering options within a question or questions within a course changes
question and course hashes in general (see the counterexample). What holds is
canonical-form equality apart from those stored hashes: for raw inputs that
differ only in such reorderings, and whose loaded courses are duplicate-free
with deterministic sort keys (distinct question ids; per question at most one
correct option and text-distinguished incorrect options), loading and
canonicalizing yields IDENTICAL trees once the course-level and
question-level stored hashes are cleared - in particular identical canonical
order, texts, ids, and identical per-option hashes. -/
theorem claim_C5_amended (k : Str) (ra rb : RawCourseData)
    (hre : RawCourseData.reorder ra rb)
    (h1 : canonReady (CourseData.new k ra))
    (h2 : canonReady (CourseData.new k rb)) :
    stripCourseHashes (CourseData.new k ra).canonicalize =
      stripCourseHashes (CourseData.new k rb).canonicalize := by
  obtain ⟨hname, hshort, halias, hyear, hevals, l, hpl, hf2⟩ := hre
  have hd1 : (CourseData.new k ra).deduplicate = CourseData.new k ra :=
    deduplicate_noop _ h1.1 (fun q hq => (h1.2.2 q hq).2.2)
  have hd2 : (CourseData.new k rb).deduplicate = CourseData.new k rb :=
    deduplicate_noop _ h2.1 (fun q hq => (h2.2.2 q hq).2.2)
  rw [canon_strip _ hd1, canon_strip _ hd2]
  have hn : (sortBy questionCmp (CourseData.new k ra).questions).map normQuestion =
      (sortBy questionCmp (CourseData.new k rb).questions).map normQuestion := by
    rw [sortBy_map questionCmp normQuestion (fun a b => rfl),
        sortBy_map questionCmp normQuestion (fun a b => rfl)]
    refine sorted_perm_eq (fun a b => ¬ questionCmp a b = .gt) _ _ ?_ ?_ ?_ ?_
    · have hqa : (CourseData.new k ra).questions =
          ra.questions.map QuestionData.ofRaw := rfl
      have hqb : (CourseData.new k rb).questions =
          rb.questions.map QuestionData.ofRaw := rfl
      rw [hqa, hqb, List.map_map, List.map_map]
      have hstep2 : l.map (normQuestion ∘ QuestionData.ofRaw) =
          rb.questions.map (normQuestion ∘ QuestionData.ofRaw) := by
        refine forall2_map_eq _ hf2 ?_
        intro a b hal hr
        have hmem : QuestionData.ofRaw a ∈ (CourseData.new k ra).questions := by
          rw [hqa]
          exact List.mem_map_of_mem _ (hpl.mem_iff.mpr hal)
        have hyps := h1.2.2 _ hmem
        exact normQuestion_ofRaw_eq a b hr hyps.1 hyps.2.1
      rw [← hstep2]
      exact (sortBy_perm _ _).trans
        ((hpl.map (normQuestion ∘ QuestionData.ofRaw)).trans (sortBy_perm _ _).symm)
    · exact sortBy_pairwise _ (notGt_total questionCmp_swap)
        (notGt_trans questionCmp_swap questionCmp_lt_trans questionCmp_eq_subst) _
    · exact sortBy_pairwise _ (notGt_total questionCmp_swap)
        (notGt_trans questionCmp_swap questionCmp_lt_trans questionCmp_eq_subst) _
    · intro a ha b hb hab hba
      have heq : questionCmp a b = .eq := by
        rcases h : questionCmp a b with _ | _ | _
        · exfalso
          apply hba
          rw [questionCmp_swap b a, h]
          rfl
        · rfl
        · exact absurd h hab
      have hid := questionCmp_eq_id heq
      obtain ⟨qa1, hqa1, rfl⟩ := List.mem_map.mp ((sortBy_perm _ _).mem_iff.mp ha)
      obtain ⟨qb1, hqb1, rfl⟩ := List.mem_map.mp ((sortBy_perm _ _).mem_iff.mp hb)
      have hid2 : qa1.id = qb1.id := hid
      have hsame : qa1 = qb1 :=
        List.inj_on_of_nodup_map h1.2.1 hqa1 hqb1 hid2
      rw [hsame]
  have hq : (sortBy questionCmp (CourseData.new k ra).questions).map
      (fun q => trimQuestion (normQuestion q)) =
      (sortBy questionCmp (CourseData.new k rb).questions).map
      (fun q => trimQuestion (normQuestion q)) := by
    have step1 : (sortBy questionCmp (CourseData.new k ra).questions).map
        (fun q => trimQuestion (normQuestion q)) =
        ((sortBy questionCmp (CourseData.new k ra).questions).map normQuestion).map
          trimQuestion := by
      rw [List.map_map]
      rfl
    have step2 : (sortBy questionCmp (CourseData.new k rb).questions).map
        (fun q => trimQuestion (normQuestion q)) =
        ((sortBy questionCmp (CourseData.new k rb).questions).map normQuestion).map
          trimQuestion := by
      rw [List.map_map]
      rfl
    rw [step1, step2, hn]
  show CourseData.mk k ra.name ra.short_name ra.aliases ra.year
      ((sortBy questionCmp ((CourseData.new k ra).questions)).map
        (fun q => trimQuestion (normQuestion q)))
      (ra.evaluations.map CourseEvaluationData.new) [] =
    CourseData.mk k rb.name rb.short_name rb.aliases rb.year
      ((sortBy questionCmp ((CourseData.new k rb).questions)).map
        (fun q => trimQuestion (normQuestion q)))
      (rb.evaluations.map CourseEvaluationData.new) []
  rw [hname, hshort, halias, hyear, hevals, hq]

/-- Witness for C5 (amended) at the concrete pair of raw courses from the C5
counterexample, differing only in the order of the two options. -/
theorem claim_C5_amended_witness :
    RawCourseData.reorder
      (mkRawCourse [mkRawQuestion 1 "q" [rawOptionA, rawOptionB]])
      (mkRawCourse [mkRawQuestion 1 "q" [rawOptionB, rawOptionA]]) ∧
    canonReady (CourseData.new (strOf "k")
      (mkRawCourse [mkRawQuestion 1 "q" [rawOptionA, rawOptionB]])) ∧
    stripCourseHashes (CourseData.new (strOf "k")
      (mkRawCourse [mkRawQuestion 1 "q" [rawOptionA, rawOptionB]])).canonicalize =
      stripCourseHashes (CourseData.new (strOf "k")
        (mkRawCourse [mkRawQuestion 1 "q" [rawOptionB, rawOptionA]])).canonicalize := by
  have hre : RawCourseData.reorder
      (mkRawCourse [mkRawQuestion 1 "q" [rawOptionA, rawOptionB]])
      (mkRawCourse [mkRawQuestion 1 "q" [rawOptionB, rawOptionA]]) :=
    ⟨rfl, rfl, rfl, rfl, rfl, [mkRawQuestion 1 "q" [rawOptionA, rawOptionB]],
      List.Perm.refl _,
      List.Forall₂.cons
        ⟨rfl, rfl, rfl, rfl, rfl, rfl, List.Perm.swap rawOptionB rawOptionA []⟩
        List.Forall₂.nil⟩
  refine ⟨hre, ?_, claim_C5_amended (strOf "k") _ _ hre ?_ ?_⟩ <;>
    unfold canonReady atMostOneCorrect incorrectTextInjective <;> decide
